import Mathlib

/-
Verification development for the `tagger` library (tag extraction from text).

The embedding below translates the library's core components:
  * the data model `Tag` / `MultiTag` (with `combined_rating`),
  * the tokenizer `Reader` (character-class based splitting, contraction
    stripping, proper/terminal flag assignment),
  * the `Stemmer` wrapper (hyphen/underscore stripping before delegating to an
    external stem function, which is taken as a parameter),
  * the rating engine `Rater` (term-frequency rating, n-gram generation,
    clustering/canonicalization, base filtering, redundancy pruning, sorting),
  * the `Tagger` pipeline.

Numbers: the library uses Python floats; the embedding models them as exact
real arithmetic over `ℝ` (ratings, weights) and exact rationals over `ℚ`
for the frequency-ratio comparisons of integers.  Python's `ZeroDivisionError`
in the redundancy-pruning step is modelled by returning `none`.
-/

/-- The `Tag` data model: surface form, canonical stem, rating, and the
proper/terminal flags. -/
structure Tag where
  string : String
  stem : String
  rating : ℝ
  proper : Bool
  terminal : Bool

/-- Tag construction (`Tag.__init__`): the stem argument defaults to the
string; an explicitly supplied stem is also replaced by the string when it is
falsy (the empty string), mirroring `stem or string`. -/
def Tag.make (string : String) (stem : Option String) (rating : ℝ) (proper : Bool)
    (terminal : Bool) : Tag :=
  ⟨string, (match stem with | none => string | some s => if s = "" then string else s),
   rating, proper, terminal⟩

/-- Placeholder tag used only for out-of-range list indexing (never reached). -/
noncomputable def dummyTag : Tag := ⟨"", "", 1, false, false⟩

/-- The `MultiTag` data model: a tag aggregating consecutive unit tags,
additionally carrying its word count `size` and the list `subratings` of its
components' ratings. -/
structure MultiTag where
  string : String
  stem : String
  rating : ℝ
  proper : Bool
  terminal : Bool
  size : ℕ
  subratings : List ℝ

/-- Placeholder multitag used only for defaulted list operations. -/
noncomputable def dummyMT : MultiTag := ⟨"", "", 1, false, false, 1, [1]⟩

open Classical in
/-- The rating of a multitag (`MultiTag.combined_rating`): the geometric mean
of the subratings (their product `reduce`-folded from `1.0`, raised to
`1/size`); when that product is zero and the tag is proper, the geometric mean
is recomputed over the strictly positive subratings only, and is `0` when
there is no such subrating. -/
noncomputable def MultiTag.combined_rating (t : MultiTag) : ℝ :=
  let product := t.subratings.foldl (fun x y => x * y) 1
  if product = 0 ∧ t.proper = true then
    let nonzero := t.subratings.filter (fun r => decide (0 < r))
    if nonzero.length = 0 then 0
    else (nonzero.foldl (fun x y => x * y) 1) ^ ((1 : ℝ) / (nonzero.length : ℝ))
  else product ^ ((1 : ℝ) / (t.size : ℝ))

/-- `MultiTag(tail)` with no head: wraps a unit tag, re-running the `Tag`
constructor (hence the falsy-stem substitution) and recording size 1 and a
singleton subratings list. -/
noncomputable def MultiTag.ofTag (t : Tag) : MultiTag :=
  ⟨t.string, if t.stem = "" then t.string else t.stem, t.rating, t.proper, t.terminal, 1,
   [t.rating]⟩

/-- `MultiTag(tail, head)`: extends `head` by the unit tag `tail`; the string
and stem are space-joined, `proper` is the conjunction, `terminal` is the
tail's flag, the subratings list is extended, and the rating is recomputed by
`combined_rating`. -/
noncomputable def MultiTag.extend (head : MultiTag) (tail : Tag) : MultiTag :=
  let pre : MultiTag :=
    ⟨head.string ++ " " ++ tail.string, head.stem ++ " " ++ tail.stem, 0,
     head.proper && tail.proper, tail.terminal, head.size + 1,
     head.subratings ++ [tail.rating]⟩
  ⟨pre.string, pre.stem, pre.combined_rating, pre.proper, pre.terminal, pre.size,
   pre.subratings⟩

/-- Iterated extension of a multitag by a list of unit tags. -/
noncomputable def extendMany (t : MultiTag) (us : List Tag) : MultiTag :=
  us.foldl MultiTag.extend t

/-- The multitag built from a non-empty chain of unit tags `u :: us`. -/
noncomputable def buildChain (u : Tag) (us : List Tag) : MultiTag :=
  extendMany (MultiTag.ofTag u) us

/- ===================== Reader (tokenizer) ===================== -/

/-- Characters of the word class `[\w\-\'_/&]` (with `\w` modelled as
alphanumeric or underscore). -/
def isWordChar (c : Char) : Bool :=
  c.isAlphanum || c == '_' || c == '-' || c == '\x27' || c == '/' || c == '&'

/-- Characters of the `\w` class (alphanumeric or underscore). -/
def isPyWordChar (c : Char) : Bool :=
  c.isAlphanum || c == '_'

/-- Paragraph-splitting characters `[\.\?!\t\n\r\f\v]`. -/
def isParaChar (c : Char) : Bool :=
  c == '.' || c == '?' || c == '!' || c == '\t' || c == '\n' || c == '\r' ||
    c == '\x0c' || c == '\x0b'

/-- Phrase-splitting characters `[,;:\(\)\[\]\{\}<>]`. -/
def isPhraseChar (c : Char) : Bool :=
  c == ',' || c == ';' || c == ':' || c == '(' || c == ')' || c == '[' || c == ']' ||
    c == '\x7b' || c == '\x7d' || c == '<' || c == '>'

/-- The characters Python's `str.isspace` accepts and `str.split()` splits on:
the ASCII whitespace and separator controls, NEL, NBSP, and the Unicode space
and line/paragraph separators. -/
def pySpaceChars : List Char :=
  [' ', '\t', '\n', '\x0b', '\x0c', '\r', '\x1c', '\x1d', '\x1e', '\x1f',
   '\x85', '\xa0', '\u1680', '\u2000', '\u2001', '\u2002', '\u2003', '\u2004',
   '\u2005', '\u2006', '\u2007', '\u2008', '\u2009', '\u200a', '\u2028',
   '\u2029', '\u202f', '\u205f', '\u3000']

/-- Python whitespace (as split by `str.split()`). -/
def isPySpace (c : Char) : Bool := pySpaceChars.contains c

/-- Splitting on one-or-more runs of characters matching `p` (the behaviour of
`re.split` with a `[class]+` pattern): pieces between maximal runs are
returned, including empty pieces at the boundaries. -/
def splitRuns (p : Char → Bool) : List Char → List (List Char)
  | [] => [[]]
  | c :: cs =>
    let r := splitRuns p cs
    if p c then
      match cs with
      | d :: _ => if p d then r else [] :: r
      | [] => [] :: r
    else (c :: r.headD []) :: r.tail

/-- Extraction of all maximal non-empty runs of characters matching `p` (the
behaviour of `re.findall` with a `[class]+` pattern). -/
def findRuns (p : Char → Bool) : List Char → List (List Char)
  | [] => []
  | c :: cs =>
    let r := findRuns p cs
    if p c then
      match cs with
      | d :: _ => if p d then (c :: r.headD []) :: r.tail else [c] :: r
      | [] => [c] :: r
    else r

/-- `Reader.clean_word`: lowercase the token, then strip a contraction or
possessive suffix: when a non-empty maximal `\w` run at the start is followed
immediately by an apostrophe, keep only that run. -/
def clean_word (w : List Char) : List Char :=
  let lw := w.map Char.toLower
  let run := lw.takeWhile isPyWordChar
  if run ≠ [] ∧ (lw.drop run.length).headD ' ' = '\x27' then run else lw

/-- `Reader.preprocess`: normalize backquote and typographic apostrophes to a
plain apostrophe. -/
def Reader.preprocess (text : String) : String :=
  String.mk (text.data.map (fun c => if c == '\x60' || c == '’' then '\x27' else c))

/-- Construction of a tag from a raw token: the string is the cleaned word,
the stem defaults to it, the rating to 1. -/
noncomputable def tagOfWord (w : List Char) (proper : Bool) (terminal : Bool) : Tag :=
  Tag.make (String.mk (clean_word w)) none 1 proper terminal

/-- Whether the original (pre-lowercasing) token starts with an uppercase
character. -/
def wordUpper (w : List Char) : Bool := (w.headD ' ').isUpper

/-- Tags produced from the first phrase of a paragraph: with more than one
token, the first token gets no proper flag, interior tokens get the
capitalization-derived proper flag, and the last token additionally gets the
terminal flag; a single token gets only the terminal flag. -/
noncomputable def firstPhraseTags (ws : List (List Char)) : List Tag :=
  if 1 < ws.length then
    tagOfWord (ws.getD 0 []) false false ::
      ((ws.drop 1).dropLast.map (fun w => tagOfWord w (wordUpper w) false) ++
        [tagOfWord (ws.getLastD []) (wordUpper (ws.getLastD [])) true])
  else if ws.length = 1 then
    [tagOfWord (ws.getD 0 []) false true]
  else []

/-- Tags produced from a following (non-first) phrase of a paragraph: with
more than one token all but the last get the capitalization-derived proper
flag; whenever there is at least one token, the last gets both the proper and
the terminal flag. -/
noncomputable def restPhraseTags (ws : List (List Char)) : List Tag :=
  (if 1 < ws.length then
     ws.dropLast.map (fun w => tagOfWord w (wordUpper w) false)
   else []) ++
  (if 0 < ws.length then
     [tagOfWord (ws.getLastD []) (wordUpper (ws.getLastD [])) true]
   else [])

/-- `Reader.__call__`: preprocess, split into paragraphs, split each paragraph
into phrases, extract word tokens per phrase, and emit tags in document
order. -/
noncomputable def Reader.call (text : String) : List Tag :=
  (splitRuns isParaChar (Reader.preprocess text).data).flatMap (fun par =>
    match splitRuns isPhraseChar par with
    | [] => []
    | first :: rest =>
        firstPhraseTags (findRuns isWordChar first) ++
          rest.flatMap (fun phr => restPhraseTags (findRuns isWordChar phr)))

/- ===================== Stemmer ===================== -/

/-- `Stemmer.preprocess`: the `\b[\-_]\b` pattern deletes each matched hyphen
or underscore; a word boundary sits exactly where `\w`-membership changes, and
since `-` is not a `\w` character while `_` is, a hyphen matches when both
neighbours are `\w` characters, and an underscore matches when neither
neighbour (start and end of string included) is one; `prev` is the character
preceding the current position in the original string. -/
def stripJoiners : Option Char → List Char → List Char
  | _, [] => []
  | prev, c :: cs =>
    let prevW := match prev with | some p => isPyWordChar p | none => false
    let nextW := match cs with | d :: _ => isPyWordChar d | [] => false
    if (c == '-' && prevW && nextW) || (c == '_' && !prevW && !nextW) then
      stripJoiners (some c) cs
    else c :: stripJoiners (some c) cs

/-- `Stemmer.__call__` with an external stem function: the tag's stem is set
to the stem of the hyphen-stripped string; the string is untouched. -/
def Stemmer.call (stemFn : String → String) (t : Tag) : Tag :=
  ⟨t.string, stemFn (String.mk (stripJoiners none t.string.data)), t.rating, t.proper,
   t.terminal⟩

/- ===================== Rater ===================== -/

/-- Space-join of a list of strings (`' '.join`). -/
def joinSpace : List String → String
  | [] => ""
  | [w] => w
  | w :: ws => w ++ " " ++ joinSpace ws

/-- Python `str.split()` (no separator): the maximal whitespace-free runs. -/
def pySplit (s : String) : List String :=
  (findRuns (fun c => !(isPySpace c)) s.data).map (fun cs => String.mk cs)

/-- Number of tags in the list whose stem is `σ` (the `Counter` of a tag list,
whose keys compare by stem). -/
def countStem (tags : List Tag) (σ : String) : ℕ :=
  (tags.filter (fun t => t.stem == σ)).length

/-- Number of multitags in the list whose stem is `σ`. -/
def countStemM (mts : List MultiTag) (σ : String) : ℕ :=
  (mts.filter (fun t => t.stem == σ)).length

/-- The `Rater`: a weights mapping (`dict.get` is modelled by `Option`) and
the maximum multitag size. -/
structure Rater where
  weights : String → Option ℝ
  multitag_size : ℕ

/-- `Rater.__init__`: stores the weights and the multitag size; no validation
is performed. -/
def Rater.init (weights : String → Option ℝ) (multitag_size : ℕ) : Rater :=
  ⟨weights, multitag_size⟩

/-- `Rater.rate_tags`: each tag's rating becomes its stem's term frequency
(count of the stem over the number of tags) times the weight looked up by
stem, defaulting to 1 for an unknown stem. -/
noncomputable def rate_tags (weights : String → Option ℝ) (tags : List Tag) : List Tag :=
  tags.map (fun t =>
    ⟨t.string, t.stem,
     (countStem tags t.stem : ℝ) / (tags.length : ℝ) * (weights t.stem).getD 1,
     t.proper, t.terminal⟩)

/-- The inner loop of `Rater.create_multitags`: starting from the already
built multitag `t` (ending at position `i + j - 1`), keep extending while the
current multitag is not terminal and the next position is in range; `fuel`
counts the remaining iterations of `range(1, multitag_size)`. -/
noncomputable def chainGo (tags : List Tag) (i : ℕ) : MultiTag → ℕ → ℕ → List MultiTag
  | _, _, 0 => []
  | t, j, fuel + 1 =>
    if t.terminal = true ∨ tags.length ≤ i + j then []
    else
      let t2 := MultiTag.extend t (tags.getD (i + j) dummyTag)
      t2 :: chainGo tags i t2 (j + 1) fuel

/-- `Rater.create_multitags`: for every start position emit the unit multitag
and then all its extensions produced by the inner loop. -/
noncomputable def create_multitags (K : ℕ) (tags : List Tag) : List MultiTag :=
  (List.range tags.length).flatMap (fun i =>
    MultiTag.ofTag (tags.getD i dummyTag) ::
      chainGo tags i (MultiTag.ofTag (tags.getD i dummyTag)) 1 (K - 1))

/-- The distinct stems of a multitag list, in first-occurrence order (the
iteration order of the `Counter` / `defaultdict` keys). -/
def dedupStems (mts : List MultiTag) : List String :=
  mts.foldl (fun acc t => if t.stem ∈ acc then acc else acc ++ [t.stem]) []

/-- The multitags of the list carrying stem `σ`, in order. -/
def occurrences (mts : List MultiTag) (σ : String) : List MultiTag :=
  mts.filter (fun t => t.stem == σ)

/-- Multiplicity of a string in a list of strings. -/
def countOccStr (l : List String) (x : String) : ℕ :=
  (l.filter (fun y => y == x)).length

/-- `Counter.most_common(1)`: a string of maximal multiplicity, the
first-encountered one among ties. -/
def most_common (l : List String) : String :=
  match l with
  | [] => ""
  | x :: _ => l.foldl (fun best y => if countOccStr l best < countOccStr l y then y else best) x

open Classical in
/-- The canonical tag of the stem group `σ` after the clustering loop of
`Rater.__call__`: the group representative is the first occurrence (the
`Counter` key object); its string becomes the most common surface string of
the group; when at least half of the occurrences are proper, the tag is marked
proper and its rating becomes the maximum rating over the proper occurrences
(the running `max` of the `ratings` defaultdict, starting from 0). -/
noncomputable def canonical (mts : List MultiTag) (σ : String) : MultiTag :=
  let occ := occurrences mts σ
  let base := occ.headD dummyMT
  let str := most_common (occ.map MultiTag.string)
  if (1 : ℚ) / 2 ≤ ((occ.filter (fun t => t.proper == true)).length : ℚ) / (occ.length : ℚ) then
    ⟨str, base.stem,
     (occ.filter (fun t => t.proper == true)).foldl (fun m t => max m t.rating) 0,
     true, base.terminal, base.size, base.subratings⟩
  else
    ⟨str, base.stem, base.rating, base.proper, base.terminal, base.size, base.subratings⟩

/-- The items of `term_count` after the clustering loop: for each distinct
stem, the (mutated) representative tag together with its occurrence count, in
first-occurrence order. -/
noncomputable def raterItems (mts : List MultiTag) : List (MultiTag × ℕ) :=
  (dedupStems mts).map (fun σ => (canonical mts σ, countStemM mts σ))

open Classical in
/-- The base-filtered set `unique_tags`: the canonical tags whose string is
longer than one character and whose rating is positive. -/
noncomputable def unique_tags0 (items : List (MultiTag × ℕ)) : List MultiTag :=
  (items.map Prod.fst).filter (fun u => decide (1 < u.string.length ∧ 0 < u.rating))

/-- `set.discard`: removal of the tag with stem `σ` (tags compare by stem). -/
noncomputable def discard (uniq : List MultiTag) (σ : String) : List MultiTag :=
  uniq.filter (fun u => !(u.stem == σ))

open Classical in
/-- One iteration of the redundancy-pruning inner loop: the sub-span of
`words` starting at `i` of length `l` is joined; dividing by a zero occurrence
count raises (`none`); otherwise, when the relative frequency is 1 and `t` is
proper, or is at least one half and `t` has positive rating, the sub-span is
discarded, else `t` itself is discarded. -/
noncomputable def pruneSub (tc : String → ℕ) (t : MultiTag) (cnt : ℕ) (words : List String)
    (l : ℕ) (uniq : List MultiTag) (i : ℕ) : Option (List MultiTag) :=
  let s := joinSpace ((words.drop i).take l)
  if tc s = 0 then none
  else
    let relative_freq : ℚ := (cnt : ℚ) / (tc s : ℚ)
    if (relative_freq = 1 ∧ t.proper = true) ∨
        ((1 : ℚ) / 2 ≤ relative_freq ∧ 0 < t.rating) then
      some (discard uniq s)
    else some (discard uniq t.stem)

/-- The redundancy-pruning loops for one counted tag `t`: over every sub-span
length `l` from 1 to the word count minus 1, and every start `i`. -/
noncomputable def pruneT (tc : String → ℕ) (t : MultiTag) (cnt : ℕ) (uniq : List MultiTag) :
    Option (List MultiTag) :=
  let words := pySplit t.stem
  (List.range' 1 (words.length - 1)).foldlM
    (fun u l => (List.range (words.length - l + 1)).foldlM (pruneSub tc t cnt words l) u) uniq

/-- The full redundancy-pruning loop over all counted tags. -/
noncomputable def pruneAll (tc : String → ℕ) (items : List (MultiTag × ℕ))
    (uniq : List MultiTag) : Option (List MultiTag) :=
  items.foldlM (fun u ti => pruneT tc ti.1 ti.2 u) uniq

open Classical in
/-- `Rater.__call__`: rate the tags, build the multitags, canonicalize each
stem group, base-filter, prune redundant tags (`none` models the
division-by-zero error), and return the survivors stably sorted by rating
descending. -/
noncomputable def Rater.call (r : Rater) (tags : List Tag) : Option (List MultiTag) :=
  let rated := rate_tags r.weights tags
  let mts := create_multitags r.multitag_size rated
  let items := raterItems mts
  (pruneAll (countStemM mts) items (unique_tags0 items)).map
    (fun uniq => uniq.mergeSort (fun a b => decide (b.rating ≤ a.rating)))

/-- `Tagger.__call__`: read, stem (with the external stem function), rate, and
keep the first `tags_number` results. -/
noncomputable def Tagger.call (stemFn : String → String) (r : Rater) (text : String)
    (tags_number : ℕ) : Option (List MultiTag) :=
  (Rater.call r ((Reader.call text).map (Stemmer.call stemFn))).map
    (fun l => l.take tags_number)

/- ===================== Derived notions used by the statements ===================== -/

/-- The multitag built by the generation loop from the chain of `n` consecutive
tags starting at position `i`. -/
noncomputable def sliceChain (tags : List Tag) (i n : ℕ) : MultiTag :=
  extendMany (MultiTag.ofTag (tags.getD i dummyTag)) ((tags.drop (i + 1)).take (n - 1))

/-- The chains emitted by `create_multitags` with maximum size `K`: a start
position and a positive length fitting in the list, such that either the chain
is a single tag, or it is no longer than `K` and no component before the last
is terminal. -/
def Emitted (tags : List Tag) (K i n : ℕ) : Prop :=
  1 ≤ n ∧ i + n ≤ tags.length ∧
    (n = 1 ∨ (n ≤ K ∧ ∀ m, m + 1 < n → (tags.getD (i + m) dummyTag).terminal = false))

/-- Stems suitable for the redundancy-pruning step: non-empty and free of
(Python) whitespace. -/
def GoodStems (tags : List Tag) : Prop :=
  ∀ u ∈ tags, u.stem ≠ "" ∧ ∀ c ∈ u.stem.data, isPySpace c = false

open Classical in
/-- The redundancy-pruning condition of `Rater.__call__` for a counted tag `t`
with count `cnt` and a sub-span stem `s`: the relative frequency
`cnt / count(s)` equals 1 and `t` is proper, or it is at least one half and
`t` has positive rating. -/
noncomputable def pruneCond (tc : String → ℕ) (t : MultiTag) (cnt : ℕ) (s : String) : Prop :=
  ((cnt : ℚ) / (tc s : ℚ) = 1 ∧ t.proper = true) ∨
    ((1 : ℚ) / 2 ≤ (cnt : ℚ) / (tc s : ℚ) ∧ 0 < t.rating)

/- ===================== Concrete inputs used in instantiations ===================== -/

/-- A two-tag sequence (second tag terminal), used to instantiate theorems. -/
noncomputable def wTags : List Tag :=
  [⟨"aa", "aa", 1, false, false⟩, ⟨"bb", "bb", 1, false, true⟩]

/-- The multitags generated from `wTags` with size 2 after rating with empty
weights. -/
noncomputable def wMts : List MultiTag :=
  create_multitags 2 (rate_tags (fun _ => none) wTags)

/-- A four-tag sequence forming two sentences of two words each. -/
noncomputable def tieTags : List Tag :=
  [⟨"alpha", "alpha", 1, false, false⟩, ⟨"beta", "beta", 1, false, true⟩,
   ⟨"gamma", "gamma", 1, false, false⟩, ⟨"delta", "delta", 1, false, true⟩]

/-- The multitags generated from `tieTags` with size 3 after rating with empty
weights. -/
noncomputable def tieMts : List MultiTag :=
  create_multitags 3 (rate_tags (fun _ => none) tieTags)

/-- A one-tag sequence whose stem contains a tab (and no space). -/
noncomputable def cexTags : List Tag := [⟨"ab", "a\tb", 1, false, false⟩]

/-- The multitags generated from `cexTags` with size 1 after rating with empty
weights. -/
noncomputable def cexMts : List MultiTag :=
  create_multitags 1 (rate_tags (fun _ => none) cexTags)

/- ===================== Basic lemmas about the data model ===================== -/

theorem extend_string (h : MultiTag) (u : Tag) :
    (h.extend u).string = h.string ++ " " ++ u.string := rfl

theorem extend_stem (h : MultiTag) (u : Tag) :
    (h.extend u).stem = h.stem ++ " " ++ u.stem := rfl

theorem extend_proper (h : MultiTag) (u : Tag) :
    (h.extend u).proper = (h.proper && u.proper) := rfl

theorem extend_terminal (h : MultiTag) (u : Tag) :
    (h.extend u).terminal = u.terminal := rfl

theorem extend_size (h : MultiTag) (u : Tag) :
    (h.extend u).size = h.size + 1 := rfl

theorem extend_subratings (h : MultiTag) (u : Tag) :
    (h.extend u).subratings = h.subratings ++ [u.rating] := rfl

theorem combined_rating_congr (a b : MultiTag) (hs : a.subratings = b.subratings)
    (hp : a.proper = b.proper) (hn : a.size = b.size) :
    a.combined_rating = b.combined_rating := by
  unfold MultiTag.combined_rating
  rw [hs, hp, hn]

theorem extend_rating (h : MultiTag) (u : Tag) :
    (h.extend u).rating = (h.extend u).combined_rating := by
  show MultiTag.combined_rating _ = MultiTag.combined_rating _
  exact combined_rating_congr _ _ rfl rfl rfl

theorem joinSpace_cons_cons (a b : String) (l : List String) :
    joinSpace (a :: b :: l) = joinSpace ((a ++ " " ++ b) :: l) := by
  cases l with
  | nil => rfl
  | cons c cs =>
    show a ++ " " ++ (b ++ " " ++ joinSpace (c :: cs)) =
      (a ++ " " ++ b) ++ " " ++ joinSpace (c :: cs)
    simp [String.append_assoc]

theorem extendMany_string (t : MultiTag) (us : List Tag) :
    (extendMany t us).string = joinSpace (t.string :: us.map Tag.string) := by
  induction us generalizing t with
  | nil => rfl
  | cons u us ih =>
    show (extendMany (t.extend u) us).string = _
    rw [ih, extend_string, ← joinSpace_cons_cons]
    rfl

theorem extendMany_stem (t : MultiTag) (us : List Tag) :
    (extendMany t us).stem = joinSpace (t.stem :: us.map Tag.stem) := by
  induction us generalizing t with
  | nil => rfl
  | cons u us ih =>
    show (extendMany (t.extend u) us).stem = _
    rw [ih, extend_stem, ← joinSpace_cons_cons]
    rfl

theorem extendMany_proper (t : MultiTag) (us : List Tag) :
    (extendMany t us).proper = (t.proper && us.all Tag.proper) := by
  induction us generalizing t with
  | nil => simp [extendMany]
  | cons u us ih =>
    show (extendMany (t.extend u) us).proper = _
    rw [ih, extend_proper]
    simp [Bool.and_assoc]

theorem extendMany_terminal (t : MultiTag) (us : List Tag) :
    (extendMany t us).terminal = (us.map Tag.terminal).getLastD t.terminal := by
  induction us generalizing t with
  | nil => rfl
  | cons u us ih =>
    show (extendMany (t.extend u) us).terminal = _
    rw [ih, extend_terminal, List.map_cons, List.getLastD_cons]

theorem extendMany_size (t : MultiTag) (us : List Tag) :
    (extendMany t us).size = t.size + us.length := by
  induction us generalizing t with
  | nil => rfl
  | cons u us ih =>
    show (extendMany (t.extend u) us).size = _
    rw [ih, extend_size]
    simp
    omega

theorem extendMany_subratings (t : MultiTag) (us : List Tag) :
    (extendMany t us).subratings = t.subratings ++ us.map Tag.rating := by
  induction us generalizing t with
  | nil => simp [extendMany]
  | cons u us ih =>
    show (extendMany (t.extend u) us).subratings = _
    rw [ih, extend_subratings]
    simp

theorem extendMany_rating (t : MultiTag) (us : List Tag) (h : us ≠ []) :
    (extendMany t us).rating = (extendMany t us).combined_rating := by
  induction us generalizing t with
  | nil => exact absurd rfl h
  | cons u us ih =>
    show (extendMany (t.extend u) us).rating = (extendMany (t.extend u) us).combined_rating
    cases us with
    | nil => exact extend_rating t u
    | cons v vs => exact ih (t.extend u) (by simp)

theorem ofTag_stem (u : Tag) (h : u.stem ≠ "") : (MultiTag.ofTag u).stem = u.stem := by
  unfold MultiTag.ofTag
  simp [h]

/- ===================== Lemmas about splitting ===================== -/

theorem splitRuns_single_pos (p : Char → Bool) (c : Char) (h : p c = true) :
    splitRuns p [c] = [[], []] := by
  simp [splitRuns, h]

theorem splitRuns_cons_pos_pos (p : Char → Bool) (c d : Char) (ds : List Char)
    (hc : p c = true) (hd : p d = true) :
    splitRuns p (c :: d :: ds) = splitRuns p (d :: ds) := by
  conv_lhs => rw [splitRuns.eq_def]
  simp [hc, hd]

theorem splitRuns_cons_pos_neg (p : Char → Bool) (c d : Char) (ds : List Char)
    (hc : p c = true) (hd : p d = false) :
    splitRuns p (c :: d :: ds) = [] :: splitRuns p (d :: ds) := by
  conv_lhs => rw [splitRuns.eq_def]
  simp [hc, hd]

theorem splitRuns_cons_neg (p : Char → Bool) (c : Char) (cs : List Char)
    (hc : p c = false) :
    splitRuns p (c :: cs) = (c :: (splitRuns p cs).headD []) :: (splitRuns p cs).tail := by
  conv_lhs => rw [splitRuns.eq_def]
  simp [hc]

theorem findRuns_single_pos (p : Char → Bool) (c : Char) (h : p c = true) :
    findRuns p [c] = [[c]] := by
  simp [findRuns, h]

theorem findRuns_cons_pos_pos (p : Char → Bool) (c d : Char) (ds : List Char)
    (hc : p c = true) (hd : p d = true) :
    findRuns p (c :: d :: ds) =
      (c :: (findRuns p (d :: ds)).headD []) :: (findRuns p (d :: ds)).tail := by
  conv_lhs => rw [findRuns.eq_def]
  simp [hc, hd]

theorem findRuns_cons_pos_neg (p : Char → Bool) (c d : Char) (ds : List Char)
    (hc : p c = true) (hd : p d = false) :
    findRuns p (c :: d :: ds) = [c] :: findRuns p (d :: ds) := by
  conv_lhs => rw [findRuns.eq_def]
  simp [hc, hd]

theorem findRuns_cons_neg (p : Char → Bool) (c : Char) (cs : List Char)
    (hc : p c = false) :
    findRuns p (c :: cs) = findRuns p cs := by
  conv_lhs => rw [findRuns.eq_def]
  simp [hc]

theorem splitRuns_ne_nil (p : Char → Bool) (cs : List Char) : splitRuns p cs ≠ [] := by
  induction cs with
  | nil => simp [splitRuns]
  | cons c cs ih =>
    by_cases h : p c = true
    · cases cs with
      | nil => rw [splitRuns_single_pos p c h]; simp
      | cons d ds =>
        by_cases hd : p d = true
        · rw [splitRuns_cons_pos_pos p c d ds h hd]; exact ih
        · rw [splitRuns_cons_pos_neg p c d ds h (by simpa using hd)]; simp
    · rw [splitRuns_cons_neg p c cs (by simpa using h)]; simp

theorem mem_splitRuns_subset (p : Char → Bool) :
    ∀ (cs : List Char) (piece : List Char), piece ∈ splitRuns p cs →
      ∀ c ∈ piece, c ∈ cs := by
  intro cs
  induction cs with
  | nil =>
    intro piece hp c hc
    simp [splitRuns] at hp
    subst hp
    simp at hc
  | cons a cs ih =>
    intro piece hp c hc
    have sub : piece ∈ splitRuns p cs → c ∈ a :: cs := fun hmem =>
      List.mem_cons_of_mem a (ih piece hmem c hc)
    by_cases h : p a = true
    · cases cs with
      | nil =>
        rw [splitRuns_single_pos p a h] at hp
        simp at hp
        subst hp
        simp at hc
      | cons d ds =>
        by_cases hd : p d = true
        · rw [splitRuns_cons_pos_pos p a d ds h hd] at hp
          exact sub hp
        · rw [splitRuns_cons_pos_neg p a d ds h (by simpa using hd)] at hp
          rcases List.mem_cons.mp hp with hp | hp
          · subst hp; simp at hc
          · exact sub hp
    · rw [splitRuns_cons_neg p a cs (by simpa using h)] at hp
      rcases List.mem_cons.mp hp with hp | hp
      · subst hp
        rcases List.mem_cons.mp hc with hc | hc
        · exact hc ▸ List.mem_cons_self a cs
        · cases hr : splitRuns p cs with
          | nil => exact absurd hr (splitRuns_ne_nil p cs)
          | cons q qs =>
            have hcq : c ∈ q := by simpa [hr] using hc
            exact List.mem_cons_of_mem a (ih q (by simp [hr]) c hcq)
      · cases hr : splitRuns p cs with
        | nil => exact absurd hr (splitRuns_ne_nil p cs)
        | cons q qs =>
          have hpq : piece ∈ qs := by simpa [hr] using hp
          exact List.mem_cons_of_mem a (ih piece (by simp [hr, hpq]) c hc)

theorem findRuns_eq_nil (p : Char → Bool) :
    ∀ (cs : List Char), (∀ c ∈ cs, p c = false) → findRuns p cs = [] := by
  intro cs
  induction cs with
  | nil => intro _; rfl
  | cons a cs ih =>
    intro h
    rw [findRuns_cons_neg p a cs (h a (by simp))]
    exact ih (fun c hc => h c (by simp [hc]))

theorem findRuns_all (p : Char → Bool) :
    ∀ (cs : List Char), cs ≠ [] → (∀ c ∈ cs, p c = true) → findRuns p cs = [cs] := by
  intro cs
  induction cs with
  | nil => intro h; exact absurd rfl h
  | cons a cs ih =>
    intro _ h
    have ha : p a = true := h a (by simp)
    cases cs with
    | nil => exact findRuns_single_pos p a ha
    | cons d ds =>
      have hd : p d = true := h d (by simp)
      rw [findRuns_cons_pos_pos p a d ds ha hd,
        ih (by simp) (fun c hc => h c (by simp [hc]))]
      rfl

theorem findRuns_break (p : Char → Bool) (x : Char) (hx : p x = false) :
    ∀ (w rest : List Char), w ≠ [] → (∀ c ∈ w, p c = true) →
      findRuns p (w ++ x :: rest) = w :: findRuns p rest := by
  intro w
  induction w with
  | nil => intro rest h; exact absurd rfl h
  | cons a w ih =>
    intro rest _ h
    have ha : p a = true := h a (by simp)
    cases w with
    | nil =>
      show findRuns p (a :: x :: rest) = [a] :: findRuns p rest
      rw [findRuns_cons_pos_neg p a x rest ha hx, findRuns_cons_neg p x rest hx]
    | cons b w' =>
      have hb : p b = true := h b (by simp)
      show findRuns p (a :: ((b :: w') ++ x :: rest)) = (a :: b :: w') :: findRuns p rest
      rw [List.cons_append, findRuns_cons_pos_pos p a b (w' ++ x :: rest) ha hb,
        ← List.cons_append, ih rest (by simp) (fun c hc => h c (by simp [hc]))]
      rfl

theorem data_joinSpace_cons (w : String) (ws : List String) (h : ws ≠ []) :
    (joinSpace (w :: ws)).data = w.data ++ ' ' :: (joinSpace ws).data := by
  cases ws with
  | nil => exact absurd rfl h
  | cons v vs =>
    show (w ++ " " ++ joinSpace (v :: vs)).data = _
    rw [String.data_append, String.data_append]
    simp

theorem string_mk_data (s : String) : String.mk s.data = s := rfl

theorem data_ne_nil (s : String) (h : s ≠ "") : s.data ≠ [] := by
  intro hd
  exact h (by rw [← string_mk_data s, hd])

theorem pySplit_joinSpace :
    ∀ (l : List String), (∀ w ∈ l, w ≠ "" ∧ ∀ c ∈ w.data, isPySpace c = false) →
      pySplit (joinSpace l) = l := by
  intro l
  induction l with
  | nil => intro _; rfl
  | cons w ws ih =>
    intro h
    obtain ⟨hw, hwc⟩ := h w (by simp)
    have hwp : ∀ c ∈ w.data, (!(isPySpace c)) = true := by
      intro c hc
      simp [hwc c hc]
    cases ws with
    | nil =>
      show pySplit w = [w]
      unfold pySplit
      rw [findRuns_all _ w.data (data_ne_nil w hw) hwp]
      simp
    | cons v vs =>
      unfold pySplit
      rw [data_joinSpace_cons w (v :: vs) (by simp)]
      rw [findRuns_break (fun c => !(isPySpace c)) ' ' (by rfl) w.data
        (joinSpace (v :: vs)).data (data_ne_nil w hw) hwp]
      have hrec := ih (fun u hu => h u (by simp [hu]))
      unfold pySplit at hrec
      simp only [List.map_cons, hrec]

/- ===================== Characterization of multitag generation ===================== -/

theorem chainGo_zero (tags : List Tag) (i : ℕ) (t : MultiTag) (j : ℕ) :
    chainGo tags i t j 0 = [] := rfl

theorem chainGo_succ (tags : List Tag) (i : ℕ) (t : MultiTag) (j fuel : ℕ) :
    chainGo tags i t j (fuel + 1) =
      if t.terminal = true ∨ tags.length ≤ i + j then []
      else
        MultiTag.extend t (tags.getD (i + j) dummyTag) ::
          chainGo tags i (MultiTag.extend t (tags.getD (i + j) dummyTag)) (j + 1) fuel := rfl

theorem drop_eq_getD_cons (d : Tag) (l : List Tag) (m : ℕ) (h : m < l.length) :
    l.drop m = l.getD m d :: l.drop (m + 1) := by
  rw [List.drop_eq_getElem_cons h, List.getD_eq_getElem l d h]

theorem chainGo_sound (tags : List Tag) (i : ℕ) :
    ∀ (fuel j : ℕ) (t mt : MultiTag), mt ∈ chainGo tags i t j fuel →
      ∃ d, 1 ≤ d ∧ d ≤ fuel ∧ i + j + d ≤ tags.length ∧
        mt = extendMany t ((tags.drop (i + j)).take d) ∧
        t.terminal = false ∧
        ∀ r, r + 1 < d → (tags.getD (i + j + r) dummyTag).terminal = false := by
  intro fuel
  induction fuel with
  | zero => intro j t mt h; rw [chainGo_zero] at h; simp at h
  | succ f ih =>
    intro j t mt h
    rw [chainGo_succ] at h
    by_cases hc : t.terminal = true ∨ tags.length ≤ i + j
    · rw [if_pos hc] at h; simp at h
    · rw [if_neg hc] at h
      push_neg at hc
      obtain ⟨hterm, hlen⟩ := hc
      have hterm' : t.terminal = false := by
        cases ht : t.terminal
        · rfl
        · exact absurd ht hterm
      rcases List.mem_cons.mp h with h | h
      · refine ⟨1, le_refl 1, by omega, by omega, ?_, hterm', by omega⟩
        rw [List.take_one, drop_eq_getD_cons dummyTag tags (i + j) hlen]
        simp [h, extendMany]
      · obtain ⟨d, hd1, hdf, hdlen, hmt, ht2, hint⟩ := ih (j + 1) _ mt h
        refine ⟨d + 1, by omega, by omega, by omega, ?_, hterm', ?_⟩
        · rw [hmt, drop_eq_getD_cons dummyTag tags (i + j) hlen]
          have : i + j + 1 = i + (j + 1) := by omega
          rw [List.take_succ_cons, this]
          rfl
        · intro r hr
          cases r with
          | zero =>
            have : (MultiTag.extend t (tags.getD (i + j) dummyTag)).terminal = false := ht2
            rw [extend_terminal] at this
            simpa using this
          | succ r' =>
            have := hint r' (by omega)
            have he : i + (j + 1) + r' = i + j + (r' + 1) := by omega
            rw [he] at this
            exact this

theorem chainGo_complete (tags : List Tag) (i : ℕ) :
    ∀ (d fuel j : ℕ) (t : MultiTag), 1 ≤ d → d ≤ fuel → i + j + d ≤ tags.length →
      t.terminal = false →
      (∀ r, r + 1 < d → (tags.getD (i + j + r) dummyTag).terminal = false) →
      extendMany t ((tags.drop (i + j)).take d) ∈ chainGo tags i t j fuel := by
  intro d
  induction d with
  | zero => intro fuel j t h1; omega
  | succ d ih =>
    intro fuel j t _ h2 h3 h4 h5
    obtain ⟨f, rfl⟩ : ∃ f, fuel = f + 1 := ⟨fuel - 1, by omega⟩
    rw [chainGo_succ, if_neg (by rw [h4]; push_neg; exact ⟨by simp, by omega⟩)]
    have hlen : i + j < tags.length := by omega
    rw [drop_eq_getD_cons dummyTag tags (i + j) hlen, List.take_succ_cons]
    cases Nat.eq_zero_or_pos d with
    | inl hd0 =>
      subst hd0
      simp [extendMany]
    | inr hdpos =>
      apply List.mem_cons_of_mem
      have he : i + j + 1 = i + (j + 1) := by omega
      have hmem := ih f (j + 1) (MultiTag.extend t (tags.getD (i + j) dummyTag))
        hdpos (by omega) (by omega)
        (by rw [extend_terminal]
            have := h5 0 (by omega)
            simpa using this)
        (by intro r hr
            have := h5 (r + 1) (by omega)
            have he2 : i + (j + 1) + r = i + j + (r + 1) := by omega
            rw [he2]
            exact this)
      rw [← he] at hmem
      exact hmem

theorem mem_create_multitags (K : ℕ) (tags : List Tag) (mt : MultiTag) :
    mt ∈ create_multitags K tags ↔
      ∃ i n, Emitted tags K i n ∧ mt = sliceChain tags i n := by
  constructor
  · intro h
    unfold create_multitags at h
    rw [List.mem_flatMap] at h
    obtain ⟨i, hi, hmem⟩ := h
    rw [List.mem_range] at hi
    rcases List.mem_cons.mp hmem with h | h
    · exact ⟨i, 1, ⟨le_refl 1, by omega, Or.inl rfl⟩, by
        unfold sliceChain
        simp [extendMany, h]⟩
    · obtain ⟨d, hd1, hdf, hdlen, hmt, hterm, hint⟩ := chainGo_sound tags i (K - 1) 1 _ mt h
      refine ⟨i, d + 1, ⟨by omega, by omega, Or.inr ⟨by omega, ?_⟩⟩, ?_⟩
      · intro m hm
        cases m with
        | zero =>
          have : (MultiTag.ofTag (tags.getD i dummyTag)).terminal = false := hterm
          simpa [MultiTag.ofTag] using this
        | succ m' =>
          have := hint m' (by omega)
          have he : i + 1 + m' = i + (m' + 1) := by omega
          rw [he] at this
          exact this
      · unfold sliceChain
        simpa using hmt
  · intro h
    obtain ⟨i, n, ⟨hn1, hlen, hK⟩, hmt⟩ := h
    unfold create_multitags
    rw [List.mem_flatMap]
    refine ⟨i, List.mem_range.mpr (by omega), ?_⟩
    rcases hK with hK | ⟨hK, hint⟩
    · subst hK
      have : sliceChain tags i 1 = MultiTag.ofTag (tags.getD i dummyTag) := by
        unfold sliceChain
        simp [extendMany]
      rw [hmt, this]
      exact List.mem_cons_self _ _
    · cases Nat.lt_or_ge n 2 with
      | inl hn2 =>
        have : n = 1 := by omega
        subst this
        have : sliceChain tags i 1 = MultiTag.ofTag (tags.getD i dummyTag) := by
          unfold sliceChain
          simp [extendMany]
        rw [hmt, this]
        exact List.mem_cons_self _ _
      | inr hn2 =>
        apply List.mem_cons_of_mem
        have hd := chainGo_complete tags i (n - 1) (K - 1) 1
          (MultiTag.ofTag (tags.getD i dummyTag)) (by omega) (by omega) (by omega)
          (by have := hint 0 (by omega)
              simpa [MultiTag.ofTag] using this)
          (by intro r hr
              have := hint (r + 1) (by omega)
              have he : i + 1 + r = i + (r + 1) := by omega
              rw [he]
              exact this)
        rw [hmt]
        unfold sliceChain
        exact hd

/- ===================== Sub-spans of generated multitags ===================== -/

theorem getD_mem (tags : List Tag) (i : ℕ) (h : i < tags.length) :
    tags.getD i dummyTag ∈ tags := by
  rw [List.getD_eq_getElem tags dummyTag h]
  exact List.getElem_mem h

theorem sliceChain_stem (tags : List Tag) (i n : ℕ) (h1 : 1 ≤ n) (h2 : i + n ≤ tags.length)
    (hg : ∀ u ∈ tags, u.stem ≠ "") :
    (sliceChain tags i n).stem = joinSpace (((tags.drop i).take n).map Tag.stem) := by
  unfold sliceChain
  rw [extendMany_stem, ofTag_stem _ (hg _ (getD_mem tags i (by omega)))]
  congr 1
  rw [drop_eq_getD_cons dummyTag tags i (by omega)]
  obtain ⟨m, rfl⟩ : ∃ m, n = m + 1 := ⟨n - 1, by omega⟩
  rw [List.take_succ_cons]
  simp

theorem Emitted_subspan (K : ℕ) (tags : List Tag) (i n off l : ℕ)
    (hE : Emitted tags K i n) (hl1 : 1 ≤ l) (hoff : off + l ≤ n) (hlt : l < n) :
    Emitted tags K (i + off) l := by
  obtain ⟨hn1, hlen, hK⟩ := hE
  refine ⟨hl1, by omega, ?_⟩
  cases Nat.lt_or_ge l 2 with
  | inl h => exact Or.inl (by omega)
  | inr h =>
    rcases hK with hK | ⟨hK, hint⟩
    · omega
    · refine Or.inr ⟨by omega, ?_⟩
      intro m hm
      have := hint (off + m) (by omega)
      have he : i + (off + m) = i + off + m := by omega
      rw [he] at this
      exact this

theorem countStemM_pos (mts : List MultiTag) (σ : String) (mt : MultiTag)
    (hmem : mt ∈ mts) (hstem : mt.stem = σ) : 1 ≤ countStemM mts σ := by
  unfold countStemM
  have : mt ∈ mts.filter (fun t => t.stem == σ) :=
    List.mem_filter.mpr ⟨hmem, by simp [hstem]⟩
  have hne : mts.filter (fun t => t.stem == σ) ≠ [] := fun hnil => by simp [hnil] at this
  have := List.length_pos.mpr hne
  omega

theorem slice_stems_subspan (tags : List Tag) (i n off l : ℕ) (hoff : off + l ≤ n)
    (h2 : i + n ≤ tags.length) :
    ((((tags.drop i).take n).map Tag.stem).drop off).take l =
      ((tags.drop (i + off)).take l).map Tag.stem := by
  rw [← List.map_drop, ← List.map_take]
  congr 1
  rw [List.drop_take, List.drop_drop, List.take_take]
  congr 1
  omega

theorem goodStems_slice (tags : List Tag) (hg : GoodStems tags) (i l : ℕ) :
    ∀ w ∈ ((tags.drop i).take l).map Tag.stem, w ≠ "" ∧ ∀ c ∈ w.data, isPySpace c = false := by
  intro w hw
  rw [List.mem_map] at hw
  obtain ⟨u, hu, rfl⟩ := hw
  exact hg u (List.mem_of_mem_drop (List.mem_of_mem_take hu))

theorem generated_subspan_mem (K : ℕ) (tags : List Tag) (hg : GoodStems tags)
    (mt : MultiTag) (hmem : mt ∈ create_multitags K tags) (l i0 : ℕ)
    (hl1 : 1 ≤ l) (hlt : l + 1 ≤ (pySplit mt.stem).length)
    (hi : i0 + l ≤ (pySplit mt.stem).length) :
    1 ≤ countStemM (create_multitags K tags)
      (joinSpace (((pySplit mt.stem).drop i0).take l)) := by
  rw [mem_create_multitags] at hmem
  obtain ⟨i, n, hE, rfl⟩ := hmem
  obtain ⟨hn1, hlen, hKint⟩ := hE
  have hstem := sliceChain_stem tags i n hn1 hlen (fun u hu => (hg u hu).1)
  have hsplit : pySplit (sliceChain tags i n).stem = ((tags.drop i).take n).map Tag.stem := by
    rw [hstem]
    exact pySplit_joinSpace _ (goodStems_slice tags hg i n)
  have hslen : (((tags.drop i).take n).map Tag.stem).length = n := by
    simp [List.length_take, List.length_drop]
    omega
  rw [hsplit] at hlt hi ⊢
  rw [hslen] at hlt hi
  rw [slice_stems_subspan tags i n i0 l hi hlen]
  have hE2 : Emitted tags K (i + i0) l :=
    Emitted_subspan K tags i n i0 l ⟨hn1, hlen, hKint⟩ hl1 hi (by omega)
  have hmem2 : sliceChain tags (i + i0) l ∈ create_multitags K tags :=
    (mem_create_multitags K tags _).mpr ⟨i + i0, l, hE2, rfl⟩
  refine countStemM_pos _ _ _ hmem2 ?_
  exact sliceChain_stem tags (i + i0) l hl1 (by omega) (fun u hu => (hg u hu).1)

/- ===================== Canonicalization lemmas ===================== -/

theorem mem_dedupStems_aux (mts : List MultiTag) :
    ∀ (acc : List String) (σ : String),
      (σ ∈ mts.foldl (fun acc t => if t.stem ∈ acc then acc else acc ++ [t.stem]) acc ↔
        σ ∈ acc ∨ ∃ mt ∈ mts, mt.stem = σ) := by
  induction mts with
  | nil => intro acc σ; simp
  | cons t mts ih =>
    intro acc σ
    show σ ∈ List.foldl _ (if t.stem ∈ acc then acc else acc ++ [t.stem]) mts ↔ _
    rw [ih]
    by_cases h : t.stem ∈ acc
    · rw [if_pos h]
      constructor
      · rintro (hσ | ⟨mt, hm, hs⟩)
        · exact Or.inl hσ
        · exact Or.inr ⟨mt, List.mem_cons_of_mem t hm, hs⟩
      · rintro (hσ | ⟨mt, hm, hs⟩)
        · exact Or.inl hσ
        · rcases List.mem_cons.mp hm with rfl | hm2
          · exact Or.inl (hs ▸ h)
          · exact Or.inr ⟨mt, hm2, hs⟩
    · rw [if_neg h]
      constructor
      · rintro (hσ | ⟨mt, hm, hs⟩)
        · rcases List.mem_append.mp hσ with hσ | hσ
          · exact Or.inl hσ
          · exact Or.inr ⟨t, List.mem_cons_self t mts, (List.mem_singleton.mp hσ).symm⟩
        · exact Or.inr ⟨mt, List.mem_cons_of_mem t hm, hs⟩
      · rintro (hσ | ⟨mt, hm, hs⟩)
        · exact Or.inl (List.mem_append.mpr (Or.inl hσ))
        · rcases List.mem_cons.mp hm with rfl | hm2
          · exact Or.inl (List.mem_append.mpr (Or.inr (List.mem_singleton.mpr hs.symm)))
          · exact Or.inr ⟨mt, hm2, hs⟩

theorem mem_dedupStems (mts : List MultiTag) (σ : String) :
    σ ∈ dedupStems mts ↔ ∃ mt ∈ mts, mt.stem = σ := by
  unfold dedupStems
  rw [mem_dedupStems_aux]
  simp

theorem canonical_stem (mts : List MultiTag) (σ : String) :
    (canonical mts σ).stem = ((occurrences mts σ).headD dummyMT).stem := by
  simp only [canonical]
  rw [apply_ite MultiTag.stem]
  simp

theorem occurrences_ne_nil (mts : List MultiTag) (σ : String) (h : σ ∈ dedupStems mts) :
    occurrences mts σ ≠ [] := by
  rw [mem_dedupStems] at h
  obtain ⟨mt, hmem, hstem⟩ := h
  intro hnil
  have : mt ∈ occurrences mts σ := List.mem_filter.mpr ⟨hmem, by simp [hstem]⟩
  simp [hnil] at this

theorem headD_occurrences_stem (mts : List MultiTag) (σ : String)
    (h : occurrences mts σ ≠ []) : ((occurrences mts σ).headD dummyMT).stem = σ := by
  cases hocc : occurrences mts σ with
  | nil => exact absurd hocc h
  | cons q qs =>
    have hq : q ∈ occurrences mts σ := hocc ▸ List.mem_cons_self q qs
    have := (List.mem_filter.mp hq).2
    simp at this
    simpa [hocc] using this

theorem canonical_stem_eq (mts : List MultiTag) (σ : String) (h : σ ∈ dedupStems mts) :
    (canonical mts σ).stem = σ := by
  rw [canonical_stem]
  exact headD_occurrences_stem mts σ (occurrences_ne_nil mts σ h)

theorem canonical_of_no_proper (mts : List MultiTag) (σ : String)
    (h : ∀ mt ∈ mts, mt.proper = false) :
    canonical mts σ =
      ⟨most_common ((occurrences mts σ).map MultiTag.string),
       ((occurrences mts σ).headD dummyMT).stem,
       ((occurrences mts σ).headD dummyMT).rating,
       ((occurrences mts σ).headD dummyMT).proper,
       ((occurrences mts σ).headD dummyMT).terminal,
       ((occurrences mts σ).headD dummyMT).size,
       ((occurrences mts σ).headD dummyMT).subratings⟩ := by
  have hfil : (occurrences mts σ).filter (fun t => t.proper == true) = [] := by
    rw [List.filter_eq_nil_iff]
    intro t ht
    have : t ∈ mts := List.mem_of_mem_filter ht
    simp [h t this]
  simp only [canonical]
  rw [if_neg]
  rw [hfil]
  simp only [List.length_nil, Nat.cast_zero]
  intro hle
  rw [zero_div] at hle
  norm_num at hle

/- ===================== Option-valued fold lemmas ===================== -/

theorem foldlM_option_subset {α : Type} (f : List MultiTag → α → Option (List MultiTag))
    (hf : ∀ b a b', f b a = some b' → ∀ x ∈ b', x ∈ b) :
    ∀ (L : List α) (b b' : List MultiTag), List.foldlM f b L = some b' → ∀ x ∈ b', x ∈ b := by
  intro L
  induction L with
  | nil =>
    intro b b' h
    rw [List.foldlM_nil] at h
    cases h
    exact fun x hx => hx
  | cons a L ih =>
    intro b b' h
    rw [List.foldlM_cons] at h
    obtain ⟨mid, hmid, hrest⟩ := Option.bind_eq_some.mp h
    intro x hx
    exact hf b a mid hmid x (ih mid b' hrest x hx)

theorem foldlM_option_split {α β : Type} (f : β → α → Option β) (L₁ L₂ : List α) (a : α)
    (b r : β) (h : List.foldlM f b (L₁ ++ a :: L₂) = some r) :
    ∃ b₁ b₂, List.foldlM f b L₁ = some b₁ ∧ f b₁ a = some b₂ ∧
      List.foldlM f b₂ L₂ = some r := by
  rw [List.foldlM_append] at h
  obtain ⟨b₁, hb₁, hrest⟩ := Option.bind_eq_some.mp h
  rw [List.foldlM_cons] at hrest
  obtain ⟨b₂, hb₂, hrest2⟩ := Option.bind_eq_some.mp hrest
  exact ⟨b₁, b₂, hb₁, hb₂, hrest2⟩

theorem foldlM_option_total {α β : Type} (f : β → α → Option β) :
    ∀ (L : List α), (∀ a ∈ L, ∀ b, ∃ b', f b a = some b') →
      ∀ b, ∃ b', List.foldlM f b L = some b' := by
  intro L
  induction L with
  | nil => intro _ b; exact ⟨b, rfl⟩
  | cons a L ih =>
    intro h b
    obtain ⟨mid, hmid⟩ := h a (by simp) b
    obtain ⟨r, hr⟩ := ih (fun a' ha' b0 => h a' (by simp [ha']) b0) mid
    refine ⟨r, ?_⟩
    rw [List.foldlM_cons, hmid]
    exact hr

/- ===================== Pruning lemmas ===================== -/

theorem discard_subset (uniq : List MultiTag) (σ : String) :
    ∀ x ∈ discard uniq σ, x ∈ uniq := fun _ hx => (List.mem_filter.mp hx).1

theorem discard_absent (uniq : List MultiTag) (σ : String) :
    ∀ x ∈ discard uniq σ, x.stem ≠ σ := by
  intro x hx
  have := (List.mem_filter.mp hx).2
  simpa using this

theorem pruneSub_subset (tc : String → ℕ) (t : MultiTag) (cnt : ℕ) (words : List String)
    (l : ℕ) (u : List MultiTag) (i : ℕ) (u' : List MultiTag)
    (h : pruneSub tc t cnt words l u i = some u') : ∀ x ∈ u', x ∈ u := by
  simp only [pruneSub] at h
  split at h
  · cases h
  · split at h
    · cases h; exact discard_subset u _
    · cases h; exact discard_subset u _

theorem pruneT_subset (tc : String → ℕ) (t : MultiTag) (cnt : ℕ) (u u' : List MultiTag)
    (h : pruneT tc t cnt u = some u') : ∀ x ∈ u', x ∈ u := by
  unfold pruneT at h
  exact foldlM_option_subset _
    (fun b a b' hb => foldlM_option_subset _
      (fun b2 a2 b2' hb2 => pruneSub_subset tc t cnt _ a b2 a2 b2' hb2) _ b b' hb)
    _ u u' h

theorem pruneAll_subset (tc : String → ℕ) (items : List (MultiTag × ℕ))
    (u u' : List MultiTag) (h : pruneAll tc items u = some u') : ∀ x ∈ u', x ∈ u := by
  unfold pruneAll at h
  exact foldlM_option_subset _
    (fun b a b' hb => pruneT_subset tc a.1 a.2 b b' hb) _ u u' h

theorem pruneSub_total (tc : String → ℕ) (t : MultiTag) (cnt : ℕ) (words : List String)
    (l : ℕ) (u : List MultiTag) (i : ℕ)
    (h : tc (joinSpace ((words.drop i).take l)) ≠ 0) :
    ∃ u', pruneSub tc t cnt words l u i = some u' := by
  simp only [pruneSub]
  rw [if_neg h]
  by_cases hc : ((cnt : ℚ) / (tc (joinSpace ((words.drop i).take l)) : ℚ) = 1 ∧
      t.proper = true) ∨
      ((1 : ℚ) / 2 ≤ (cnt : ℚ) / (tc (joinSpace ((words.drop i).take l)) : ℚ) ∧
        0 < t.rating)
  · rw [if_pos hc]
    exact ⟨_, rfl⟩
  · rw [if_neg hc]
    exact ⟨_, rfl⟩

theorem pruneT_total (tc : String → ℕ) (t : MultiTag) (cnt : ℕ) (u : List MultiTag)
    (h : ∀ l i, 1 ≤ l → l + 1 ≤ (pySplit t.stem).length →
      i + l ≤ (pySplit t.stem).length →
      tc (joinSpace (((pySplit t.stem).drop i).take l)) ≠ 0) :
    ∃ u', pruneT tc t cnt u = some u' := by
  unfold pruneT
  apply foldlM_option_total
  intro l hl v
  rw [List.mem_range'_1] at hl
  apply foldlM_option_total
  intro i hi w
  rw [List.mem_range] at hi
  exact pruneSub_total tc t cnt _ l w i
    (h l i (by omega) (by omega) (by omega))

theorem pruneSub_some_ne_zero (tc : String → ℕ) (t : MultiTag) (cnt : ℕ)
    (words : List String) (l : ℕ) (u : List MultiTag) (i : ℕ) (u' : List MultiTag)
    (h : pruneSub tc t cnt words l u i = some u') :
    tc (joinSpace ((words.drop i).take l)) ≠ 0 := by
  intro h0
  simp only [pruneSub] at h
  rw [if_pos h0] at h
  cases h

theorem pruneSub_some_cond (tc : String → ℕ) (t : MultiTag) (cnt : ℕ)
    (words : List String) (l : ℕ) (u : List MultiTag) (i : ℕ) (u' : List MultiTag)
    (h : pruneSub tc t cnt words l u i = some u')
    (hcond : ((cnt : ℚ) / (tc (joinSpace ((words.drop i).take l)) : ℚ) = 1 ∧
        t.proper = true) ∨
      ((1 : ℚ) / 2 ≤ (cnt : ℚ) / (tc (joinSpace ((words.drop i).take l)) : ℚ) ∧
        0 < t.rating)) :
    ∀ x ∈ u', x.stem ≠ joinSpace ((words.drop i).take l) := by
  have hz := pruneSub_some_ne_zero tc t cnt words l u i u' h
  simp only [pruneSub] at h
  rw [if_neg hz, if_pos hcond] at h
  cases h
  exact discard_absent u _

theorem pruneSub_some_ncond (tc : String → ℕ) (t : MultiTag) (cnt : ℕ)
    (words : List String) (l : ℕ) (u : List MultiTag) (i : ℕ) (u' : List MultiTag)
    (h : pruneSub tc t cnt words l u i = some u')
    (hcond : ¬ (((cnt : ℚ) / (tc (joinSpace ((words.drop i).take l)) : ℚ) = 1 ∧
        t.proper = true) ∨
      ((1 : ℚ) / 2 ≤ (cnt : ℚ) / (tc (joinSpace ((words.drop i).take l)) : ℚ) ∧
        0 < t.rating))) :
    ∀ x ∈ u', x.stem ≠ t.stem := by
  have hz := pruneSub_some_ne_zero tc t cnt words l u i u' h
  simp only [pruneSub] at h
  rw [if_neg hz, if_neg hcond] at h
  cases h
  exact discard_absent u _

theorem rater_call_eq (W : String → Option ℝ) (K : ℕ) (tags : List Tag) :
    Rater.call ⟨W, K⟩ tags =
      (pruneAll (countStemM (create_multitags K (rate_tags W tags)))
        (raterItems (create_multitags K (rate_tags W tags)))
        (unique_tags0 (raterItems (create_multitags K (rate_tags W tags))))).map
        (fun uniq => uniq.mergeSort (fun a b => decide (b.rating ≤ a.rating))) := rfl

theorem goodStems_rate_tags (W : String → Option ℝ) (tags : List Tag)
    (h : GoodStems tags) : GoodStems (rate_tags W tags) := by
  intro u hu
  unfold rate_tags at hu
  rw [List.mem_map] at hu
  obtain ⟨t, ht, rfl⟩ := hu
  exact h t ht

/- ===================== Further helper lemmas ===================== -/

theorem combined_rating_pos (t : MultiTag)
    (hp : 0 < t.subratings.foldl (fun x y => x * y) 1) : 0 < t.combined_rating := by
  unfold MultiTag.combined_rating
  rw [if_neg (by intro hand; rw [hand.1] at hp; exact lt_irrefl 0 hp)]
  exact Real.rpow_pos_of_pos hp _

theorem getLastD_map (f : Tag → Bool) (us : List Tag) (u : Tag) :
    (us.map f).getLastD (f u) = f (us.getLastD u) := by
  induction us generalizing u with
  | nil => rfl
  | cons a l ih =>
    rw [List.map_cons, List.getLastD_cons, List.getLastD_cons]
    exact ih a

theorem rate_tags_length (W : String → Option ℝ) (tags : List Tag) :
    (rate_tags W tags).length = tags.length := by
  unfold rate_tags
  rw [List.length_map]

theorem rate_tags_getD (W : String → Option ℝ) (tags : List Tag) (k : ℕ)
    (hk : k < tags.length) :
    (rate_tags W tags).getD k dummyTag =
      ⟨(tags.getD k dummyTag).string, (tags.getD k dummyTag).stem,
       (countStem tags ((tags.getD k dummyTag).stem) : ℝ) / (tags.length : ℝ) *
         ((W ((tags.getD k dummyTag).stem)).getD 1),
       (tags.getD k dummyTag).proper, (tags.getD k dummyTag).terminal⟩ := by
  have hk2 : k < (rate_tags W tags).length := by rw [rate_tags_length]; exact hk
  rw [List.getD_eq_getElem _ _ hk2, List.getD_eq_getElem _ _ hk]
  unfold rate_tags
  rw [List.getElem_map]

theorem buildChain_subratings (u : Tag) (us : List Tag) :
    (buildChain u us).subratings = u.rating :: us.map Tag.rating := by
  unfold buildChain
  rw [extendMany_subratings]
  rfl

theorem buildChain_size (u : Tag) (us : List Tag) :
    (buildChain u us).size = us.length + 1 := by
  unfold buildChain
  rw [extendMany_size]
  show 1 + us.length = us.length + 1
  omega

theorem buildChain_proper (u : Tag) (us : List Tag) :
    (buildChain u us).proper = (u :: us).all Tag.proper := by
  unfold buildChain
  rw [extendMany_proper]
  rfl

/- ===================== Claim C8 ===================== -/

/-- Claim C8 counterexample: the claim states that the stem of a chain-built
multitag is always the space-join of the component stems, but when the first
component has the empty stem, `MultiTag.__init__` re-runs the `Tag`
constructor and `stem or string` substitutes the component's string: the
one-component chain over a tag with string `"x"` and empty stem gets stem
`"x"`, not the space-join `""`. -/
theorem C8_counterexample :
    (buildChain ⟨"x", "", 1, false, false⟩ []).stem ≠
      joinSpace (([⟨"x", "", 1, false, false⟩] : List Tag).map Tag.stem) := by
  show ("x" : String) ≠ ""
  decide

/-- Claim C8 (amended): for a multitag built by extending a chain of unit tags
`u :: us`, the string is the space-join of the component strings, the stem is
the space-join of the component stems except that an empty stem of the first
component is replaced by that component's string, the terminal flag is the
last component's terminal flag, and the proper flag is the conjunction of all
components' proper flags. -/
theorem C8_amended (u : Tag) (us : List Tag) :
    (buildChain u us).string = joinSpace ((u :: us).map Tag.string) ∧
    (buildChain u us).stem =
      joinSpace ((if u.stem = "" then u.string else u.stem) :: us.map Tag.stem) ∧
    (buildChain u us).terminal = (us.getLastD u).terminal ∧
    (buildChain u us).proper = (u :: us).all Tag.proper := by
  refine ⟨?_, ?_, ?_, ?_⟩
  · unfold buildChain
    rw [extendMany_string]
    rfl
  · unfold buildChain
    rw [extendMany_stem]
    rfl
  · unfold buildChain
    rw [extendMany_terminal]
    show (us.map Tag.terminal).getLastD (Tag.terminal u) = _
    rw [getLastD_map Tag.terminal us u]
  · exact buildChain_proper u us

/- ===================== Claim C2 ===================== -/

open Classical in
/-- Claim C2: for a multitag built from a chain of components, the combined
rating is the geometric mean of the subratings (their product raised to one
over their number); when the product is zero and the tag is proper, the
geometric mean of the strictly positive subratings only (whenever one
exists); zero when all subratings are zero; and in particular a two-word
proper chain with subratings `[0, 0.2]` has combined rating `0.2`. -/
theorem C2_combined_rating (u : Tag) (us : List Tag) :
    (¬ ((buildChain u us).subratings.prod = 0 ∧ (buildChain u us).proper = true) →
      (buildChain u us).combined_rating =
        (buildChain u us).subratings.prod ^
          ((1 : ℝ) / ((buildChain u us).subratings.length : ℝ))) ∧
    ((buildChain u us).subratings.prod = 0 → (buildChain u us).proper = true →
      (buildChain u us).subratings.filter (fun r => decide (0 < r)) ≠ [] →
      (buildChain u us).combined_rating =
        ((buildChain u us).subratings.filter (fun r => decide (0 < r))).prod ^
          ((1 : ℝ) /
            (((buildChain u us).subratings.filter (fun r => decide (0 < r))).length : ℝ))) ∧
    ((∀ r ∈ (buildChain u us).subratings, r = 0) →
      (buildChain u us).combined_rating = 0) ∧
    (buildChain ⟨"a", "a", 0, true, false⟩
      [⟨"b", "b", 0.2, true, false⟩]).combined_rating = 0.2 := by
  have hlen : (buildChain u us).size = (buildChain u us).subratings.length := by
    rw [buildChain_size, buildChain_subratings]
    simp
  refine ⟨?_, ?_, ?_, ?_⟩
  · intro h
    unfold MultiTag.combined_rating
    rw [if_neg (by rw [← List.prod_eq_foldl]; exact h), ← List.prod_eq_foldl, hlen]
  · intro h0 hp hne
    unfold MultiTag.combined_rating
    rw [if_pos ⟨by rw [← List.prod_eq_foldl]; exact h0, hp⟩]
    rw [if_neg (by simpa [List.length_eq_zero] using hne), ← List.prod_eq_foldl]
  · intro hall
    have h0 : (buildChain u us).subratings.prod = 0 := by
      apply List.prod_eq_zero
      have : u.rating ∈ (buildChain u us).subratings := by
        rw [buildChain_subratings]; simp
      rw [hall u.rating this] at this
      exact this
    have hfil : (buildChain u us).subratings.filter (fun r => decide (0 < r)) = [] := by
      rw [List.filter_eq_nil_iff]
      intro r hr
      rw [hall r hr]
      simp
    by_cases hp : (buildChain u us).proper = true
    · unfold MultiTag.combined_rating
      rw [if_pos ⟨by rw [← List.prod_eq_foldl]; exact h0, hp⟩, if_pos (by rw [hfil]; rfl)]
    · unfold MultiTag.combined_rating
      rw [if_neg (by intro hand; exact hp hand.2), ← List.prod_eq_foldl, h0]
      apply Real.zero_rpow
      rw [hlen, buildChain_subratings]
      simp only [List.length_cons]
      intro hdiv
      have : ((us.map Tag.rating).length + 1 : ℝ) ≠ 0 := by
        push_cast
        positivity
      rw [div_eq_zero_iff] at hdiv
      rcases hdiv with hdiv | hdiv
      · norm_num at hdiv
      · exact this (by push_cast at hdiv ⊢; linarith)
  · have he : (buildChain ⟨"a", "a", 0, true, false⟩
        [⟨"b", "b", 0.2, true, false⟩]).combined_rating =
        MultiTag.combined_rating ⟨"", "", 1, true, false, 2, [0, 0.2]⟩ :=
      combined_rating_congr _ _ rfl rfl rfl
    rw [he]
    unfold MultiTag.combined_rating
    rw [if_pos (by constructor
                   · show (1 : ℝ) * 0 * 0.2 = 0
                     norm_num
                   · rfl)]
    have hfil : ([0, 0.2] : List ℝ).filter (fun r => decide (0 < r)) = [0.2] := by
      rw [List.filter_cons_of_neg (by simp), List.filter_cons_of_pos (by simp; norm_num)]
      rfl
    rw [hfil]
    rw [if_neg (by simp)]
    show ((1 : ℝ) * 0.2) ^ ((1 : ℝ) / ((1 : ℕ) : ℝ)) = 0.2
    rw [one_mul]
    norm_num

/-- Witness for claim C2: a one-component proper chain whose only subrating is
zero has combined rating zero. -/
theorem C2_witness :
    (buildChain ⟨"a", "a", 0, true, false⟩ []).combined_rating = 0 := by
  refine (C2_combined_rating ⟨"a", "a", 0, true, false⟩ []).2.2.1 ?_
  intro r hr
  rw [buildChain_subratings] at hr
  simpa using hr

/- ===================== Claim C3 ===================== -/

/-- Claim C3: after the Rater's base-rating step, every tag's rating is the
term frequency of its stem (occurrences of the stem over the total tag count)
multiplied by the weight looked up by stem with default 1; with the empty
weights mapping the rating is the plain term frequency. -/
theorem C3_rate_tags (W : String → Option ℝ) (tags : List Tag) (hne : tags ≠ [])
    (k : ℕ) (hk : k < tags.length) :
    ((rate_tags W tags).getD k dummyTag).rating =
      (countStem tags ((tags.getD k dummyTag).stem) : ℝ) / (tags.length : ℝ) *
        ((W ((tags.getD k dummyTag).stem)).getD 1) ∧
    ((rate_tags (fun _ => none) tags).getD k dummyTag).rating =
      (countStem tags ((tags.getD k dummyTag).stem) : ℝ) / (tags.length : ℝ) := by
  constructor
  · rw [rate_tags_getD W tags k hk]
  · rw [rate_tags_getD (fun _ => none) tags k hk]
    simp

/-- Witness for claim C3 at the two-tag input `wTags`, index 0. -/
theorem C3_witness :
    ((rate_tags (fun _ => some (1/2)) wTags).getD 0 dummyTag).rating =
      (countStem wTags ((wTags.getD 0 dummyTag).stem) : ℝ) / (wTags.length : ℝ) *
        (((fun _ => some ((1:ℝ)/2)) ((wTags.getD 0 dummyTag).stem)).getD 1) ∧
    ((rate_tags (fun _ => none) wTags).getD 0 dummyTag).rating =
      (countStem wTags ((wTags.getD 0 dummyTag).stem) : ℝ) / (wTags.length : ℝ) :=
  C3_rate_tags (fun _ => some (1/2)) wTags (by unfold wTags; simp) 0
    (by unfold wTags; simp)

/- ===================== Claim C5 ===================== -/

/-- Claim C5 counterexample: the claim states that every single-token phrase
gets a tag with the proper flag left false, and that multi-token phrases
compute the proper flag for every token.  Both parts fail: in `"x,Bob"` the
second phrase consists of the single token `Bob` and its tag is marked proper
(computed from the capitalization), and in a paragraph's first phrase the
first of several tokens never gets a computed proper flag (it stays false for
the capitalized `Bob`). -/
theorem C5_counterexample :
    (Reader.call "x,Bob").map (fun t => (t.string, t.proper, t.terminal)) =
      [("x", false, true), ("bob", true, true)] ∧
    (firstPhraseTags [[ 'B', 'o', 'b' ], [ 's' ]]).map Tag.proper = [false, false] ∧
    wordUpper [ 'B', 'o', 'b' ] = true := by
  refine ⟨by decide, by decide, by decide⟩

/-- Claim C5 (amended): a phrase with exactly one token yields one terminal
tag; its proper flag is left false exactly when the phrase is the first
phrase of its paragraph, and is computed from the token's capitalization in
the following phrases.  In a multi-token phrase every token's proper flag is
computed from its capitalization, except the first token of a paragraph's
first phrase, whose proper flag is left false; the last token is terminal. -/
theorem C5_amended (ws : List (List Char)) (w : List Char) :
    firstPhraseTags [w] = [tagOfWord w false true] ∧
    restPhraseTags [w] = [tagOfWord w (wordUpper w) true] ∧
    (1 < ws.length →
      firstPhraseTags ws =
        tagOfWord (ws.getD 0 []) false false ::
          ((ws.drop 1).dropLast.map (fun v => tagOfWord v (wordUpper v) false) ++
            [tagOfWord (ws.getLastD []) (wordUpper (ws.getLastD [])) true])) ∧
    (1 < ws.length →
      restPhraseTags ws =
        ws.dropLast.map (fun v => tagOfWord v (wordUpper v) false) ++
          [tagOfWord (ws.getLastD []) (wordUpper (ws.getLastD [])) true]) := by
  refine ⟨?_, ?_, ?_, ?_⟩
  · unfold firstPhraseTags
    rw [if_neg (by simp), if_pos (by simp)]
    rfl
  · unfold restPhraseTags
    rw [if_neg (by simp), if_pos (by simp)]
    rfl
  · intro h
    unfold firstPhraseTags
    rw [if_pos h]
  · intro h
    unfold restPhraseTags
    rw [if_pos h, if_pos (by omega)]

/-- Witness for claim C5 (amended) at a concrete two-token phrase. -/
theorem C5_witness :
    firstPhraseTags [[ 'B', 'o', 'b' ], [ 's' ]] =
      tagOfWord ([[ 'B', 'o', 'b' ], [ 's' ]].getD 0 []) false false ::
        (([[ 'B', 'o', 'b' ], [ 's' ]].drop 1).dropLast.map
            (fun v => tagOfWord v (wordUpper v) false) ++
          [tagOfWord ([[ 'B', 'o', 'b' ], [ 's' ]].getLastD [])
            (wordUpper ([[ 'B', 'o', 'b' ], [ 's' ]].getLastD [])) true]) :=
  (C5_amended [[ 'B', 'o', 'b' ], [ 's' ]] [ 'x' ]).2.2.1 (by decide)

/- ===================== Claim C6 ===================== -/

/-- Claim C6 counterexample: the claim states that constructing a Rater with
multitag size less than 1 fails, but `Rater.__init__` performs no validation:
construction with size 0 succeeds and stores the size unchanged. -/
theorem C6_counterexample :
    (Rater.init (fun _ => none) 0).multitag_size = 0 ∧
    create_multitags 0 wTags = wTags.map MultiTag.ofTag := by
  constructor
  · rfl
  · rfl

/-- Claim C6 (amended): constructing a Rater with a multitag size less than 1
is not rejected: the constructor stores the weights and the size as given,
and the resulting configuration is usable (multitag generation with size 0
yields exactly the unit multitags). -/
theorem range_flatMap_singleton_getD (f : Tag → MultiTag) :
    ∀ (l : List Tag),
      (List.range l.length).flatMap (fun i => [f (l.getD i dummyTag)]) = l.map f := by
  intro l
  induction l with
  | nil => rfl
  | cons a l ih =>
    show (List.range (l.length + 1)).flatMap _ = _
    rw [List.range_succ_eq_map, List.flatMap_cons, List.flatMap_map]
    show [f a] ++ (List.range l.length).flatMap (fun i => [f (l.getD i dummyTag)]) = _
    rw [ih]
    rfl

theorem C6_amended (W : String → Option ℝ) (k : ℕ) (hk : k < 1) (tags : List Tag) :
    (Rater.init W k).multitag_size = k ∧ (Rater.init W k).weights = W ∧
    create_multitags k tags = tags.map MultiTag.ofTag := by
  refine ⟨rfl, rfl, ?_⟩
  obtain rfl : k = 0 := by omega
  unfold create_multitags
  have : (fun i => MultiTag.ofTag (tags.getD i dummyTag) ::
      chainGo tags i (MultiTag.ofTag (tags.getD i dummyTag)) 1 (0 - 1)) =
      (fun i => [MultiTag.ofTag (tags.getD i dummyTag)]) := by
    funext i
    rfl
  rw [this, range_flatMap_singleton_getD MultiTag.ofTag tags]

/-- Witness for claim C6 (amended) at size 0. -/
theorem C6_witness :
    (Rater.init (fun _ => none) 0).multitag_size = 0 ∧
    (Rater.init (fun _ => none) 0).weights = (fun _ => none) ∧
    create_multitags 0 tieTags = tieTags.map MultiTag.ofTag :=
  C6_amended (fun _ => none) 0 (by omega) tieTags

/- ===================== Claim C7 ===================== -/

/-- Claim C7: every multitag emitted by multitag generation is the chain built
from a contiguous slice of the tag sequence in which no component except
possibly the last is terminal; no generated multitag spans across a terminal
tag. -/
theorem C7_terminal_boundary (K : ℕ) (tags : List Tag) (mt : MultiTag)
    (h : mt ∈ create_multitags K tags) :
    ∃ i n, 1 ≤ n ∧ i + n ≤ tags.length ∧ mt = sliceChain tags i n ∧
      ∀ u ∈ ((tags.drop i).take n).dropLast, u.terminal = false := by
  rw [mem_create_multitags] at h
  obtain ⟨i, n, ⟨hn1, hlen, hK⟩, rfl⟩ := h
  refine ⟨i, n, hn1, hlen, rfl, ?_⟩
  intro u hu
  have hslice : ((tags.drop i).take n).length = n := by
    simp [List.length_take, List.length_drop]
    omega
  rw [List.dropLast_eq_take, hslice] at hu
  rw [List.mem_iff_getElem] at hu
  obtain ⟨j, hj, rfl⟩ := hu
  have hjlt : j < n - 1 := by
    have := hj
    simp [List.length_take, hslice] at this
    omega
  have hj2 : j < ((tags.drop i).take n).length := by omega
  have hj3 : i + j < tags.length := by omega
  have hval : (((tags.drop i).take n).take (n - 1))[j] = tags.getD (i + j) dummyTag := by
    rw [List.getElem_take, List.getElem_take, List.getElem_drop,
      List.getD_eq_getElem tags dummyTag hj3]
  rw [hval]
  rcases hK with hK | ⟨_, hint⟩
  · omega
  · exact hint j (by omega)

/-- Witness for claim C7: the unit multitag over the single tag of a one-tag
sequence is emitted, and the characterization applies to it. -/
theorem C7_witness :
    ∃ i n, 1 ≤ n ∧ i + n ≤ ([⟨"xx", "xx", 1, false, false⟩] : List Tag).length ∧
      MultiTag.ofTag ⟨"xx", "xx", 1, false, false⟩ =
        sliceChain [⟨"xx", "xx", 1, false, false⟩] i n ∧
      ∀ u ∈ ((([⟨"xx", "xx", 1, false, false⟩] : List Tag).drop i).take n).dropLast,
        u.terminal = false := by
  refine C7_terminal_boundary 1 [⟨"xx", "xx", 1, false, false⟩]
    (MultiTag.ofTag ⟨"xx", "xx", 1, false, false⟩) ?_
  have he : create_multitags 1 [⟨"xx", "xx", 1, false, false⟩] =
      [MultiTag.ofTag ⟨"xx", "xx", 1, false, false⟩] := rfl
  rw [he]
  exact List.mem_cons_self _ _

/- ===================== Claim C9 ===================== -/

theorem pySpace_mem (c : Char) (h : isPySpace c = true) : c ∈ pySpaceChars := by
  unfold isPySpace at h
  simpa using h

theorem pySpace_not_special (c : Char) (h : isPySpace c = true) :
    (c == '\x60' || c == '’') = false := by
  have hm := pySpace_mem c h
  fin_cases hm <;> rfl

theorem pySpace_not_word (c : Char) (h : isPySpace c = true) : isWordChar c = false := by
  have hm := pySpace_mem c h
  fin_cases hm <;> rfl

theorem reader_whitespace (text : String) (h : ∀ c ∈ text.data, isPySpace c = true) :
    Reader.call text = [] := by
  have hpre : ∀ c ∈ (Reader.preprocess text).data, isPySpace c = true := by
    intro c hc
    unfold Reader.preprocess at hc
    rw [List.mem_map] at hc
    obtain ⟨c0, hc0, rfl⟩ := hc
    rw [if_neg (by rw [pySpace_not_special c0 (h c0 hc0)]; simp)]
    exact h c0 hc0
  unfold Reader.call
  rw [List.flatMap_eq_nil_iff]
  intro par hpar
  have hparw : ∀ c ∈ par, isPySpace c = true := fun c hc =>
    hpre c (mem_splitRuns_subset isParaChar _ par hpar c hc)
  cases hphr : splitRuns isPhraseChar par with
  | nil => rfl
  | cons first rest =>
    have hfw : ∀ c ∈ first, isPySpace c = true := fun c hc =>
      hparw c (mem_splitRuns_subset isPhraseChar par first (by rw [hphr]; simp) c hc)
    show firstPhraseTags (findRuns isWordChar first) ++
      rest.flatMap (fun phr => restPhraseTags (findRuns isWordChar phr)) = []
    rw [findRuns_eq_nil isWordChar first (fun c hc => pySpace_not_word c (hfw c hc))]
    show firstPhraseTags [] ++ rest.flatMap _ = []
    rw [List.flatMap_eq_nil_iff.mpr]
    · rfl
    · intro phr hphr2
      have hw : ∀ c ∈ phr, isPySpace c = true := fun c hc =>
        hparw c (mem_splitRuns_subset isPhraseChar par phr (by rw [hphr]; simp [hphr2]) c hc)
      rw [findRuns_eq_nil isWordChar phr (fun c hc => pySpace_not_word c (hw c hc))]
      rfl

theorem rater_call_nil (W : String → Option ℝ) (K : ℕ) :
    Rater.call ⟨W, K⟩ [] = some [] := by
  rw [rater_call_eq]
  show some (List.mergeSort (unique_tags0 (raterItems (create_multitags K (rate_tags W []))))
    (fun a b => decide (b.rating ≤ a.rating))) = some []
  have he : unique_tags0 (raterItems (create_multitags K (rate_tags W []))) = [] := rfl
  rw [he, List.mergeSort_nil]

/-- Claim C9: on an input text that is empty or consists solely of whitespace
characters, the full pipeline (Reader, then Stemmer, then Rater, then Tagger)
returns the empty tag list and no error occurs (the result is `some []`, so
in particular the Rater's division by the tag count is never reached on an
empty sequence). -/
theorem C9_whitespace (stemFn : String → String) (W : String → Option ℝ) (K N : ℕ)
    (text : String) (h : ∀ c ∈ text.data, isPySpace c = true) :
    Tagger.call stemFn (Rater.init W K) text N = some [] := by
  unfold Tagger.call
  rw [reader_whitespace text h]
  show (Rater.call ⟨W, K⟩ []).map _ = some []
  rw [rater_call_nil W K]
  simp

/-- Witness for claim C9 on a concrete whitespace-only text. -/
theorem C9_witness :
    Tagger.call id (Rater.init (fun _ => none) 3) " \t " 5 = some [] :=
  C9_whitespace id (fun _ => none) 3 5 " \t " (by decide)

/- ===================== Claim C10 ===================== -/

/-- Claim C10 counterexample: the claim assumes only that the unit-tag stems
contain no space characters, but Python's `str.split()` splits on every kind
of whitespace: with the single stem containing a tab, the generated unit
multitag `"a\tb"` is counted, its stem splits into the two words `a` and `b`,
the sub-span `a` of length 1 corresponds to no generated multitag (count 0),
and the redundancy-pruning division crashes (the call returns `none`). -/
theorem C10_counterexample :
    (∀ u ∈ cexTags, ∀ c ∈ u.stem.data, c ≠ ' ') ∧
    countStemM cexMts "a\tb" = 1 ∧
    countStemM cexMts (joinSpace (((pySplit "a\tb").drop 0).take 1)) = 0 ∧
    Rater.call (Rater.init (fun _ => none) 1) cexTags = none := by
  refine ⟨by decide, rfl, rfl, ?_⟩
  have hstem : (canonical cexMts "a\tb").stem = "a\tb" := by rw [canonical_stem]; rfl
  have hpt : ∀ u, pruneT (countStemM cexMts) (canonical cexMts "a\tb") 1 u = none := by
    intro u
    simp only [pruneT, hstem]
    rfl
  have hra : raterItems cexMts = [(canonical cexMts "a\tb", 1)] := rfl
  have hpa : pruneAll (countStemM cexMts) (raterItems cexMts)
      (unique_tags0 (raterItems cexMts)) = none := by
    rw [hra]
    simp only [pruneAll, List.foldlM_cons, hpt]
    rfl
  show (pruneAll (countStemM cexMts) (raterItems cexMts)
      (unique_tags0 (raterItems cexMts))).map
      (fun uniq => uniq.mergeSort (fun a b => decide (b.rating ≤ a.rating))) = none
  rw [hpa]
  rfl

/-- Claim C10 (amended): for a tag sequence whose unit-tag stems are
non-empty and contain no whitespace characters, and a Rater with multitag
size at least 1, every contiguous sub-span (of length 1 up to the word count
minus 1) of a counted multitag's stem words corresponds to a multitag that
was itself generated (its occurrence count is at least 1), and consequently
the redundancy-pruning division never divides by zero: the Rater call
returns a result. -/
theorem C10_amended (W : String → Option ℝ) (K : ℕ) (tags : List Tag)
    (hg : GoodStems tags) (hK : 1 ≤ K) :
    (∀ mt ∈ create_multitags K (rate_tags W tags), ∀ l i0, 1 ≤ l →
      l + 1 ≤ (pySplit mt.stem).length → i0 + l ≤ (pySplit mt.stem).length →
      1 ≤ countStemM (create_multitags K (rate_tags W tags))
        (joinSpace (((pySplit mt.stem).drop i0).take l))) ∧
    ∃ res, Rater.call (Rater.init W K) tags = some res := by
  have hg2 := goodStems_rate_tags W tags hg
  constructor
  · intro mt hmt l i0 h1 h2 h3
    exact generated_subspan_mem K _ hg2 mt hmt l i0 h1 h2 h3
  · show ∃ res, Rater.call ⟨W, K⟩ tags = some res
    rw [rater_call_eq]
    have htot : ∃ uniq, pruneAll
        (countStemM (create_multitags K (rate_tags W tags)))
        (raterItems (create_multitags K (rate_tags W tags)))
        (unique_tags0 (raterItems (create_multitags K (rate_tags W tags)))) =
        some uniq := by
      unfold pruneAll
      apply foldlM_option_total
      intro a ha u
      unfold raterItems at ha
      rw [List.mem_map] at ha
      obtain ⟨σ, hσ, rfl⟩ := ha
      apply pruneT_total
      intro l i hl1 hl2 hl3
      rw [canonical_stem_eq _ σ hσ] at hl2 hl3 ⊢
      obtain ⟨mt0, hmt0, hstem0⟩ := (mem_dedupStems _ σ).mp hσ
      rw [← hstem0] at hl2 hl3 ⊢
      have := generated_subspan_mem K (rate_tags W tags) hg2 mt0 hmt0 l i hl1 hl2 hl3
      omega
    obtain ⟨uniq, huniq⟩ := htot
    exact ⟨uniq.mergeSort (fun a b => decide (b.rating ≤ a.rating)), by rw [huniq]; rfl⟩

/-- Witness for claim C10 (amended) at the two-tag input `wTags`. -/
theorem C10_witness :
    (∀ mt ∈ create_multitags 2 (rate_tags (fun _ => none) wTags), ∀ l i0, 1 ≤ l →
      l + 1 ≤ (pySplit mt.stem).length → i0 + l ≤ (pySplit mt.stem).length →
      1 ≤ countStemM (create_multitags 2 (rate_tags (fun _ => none) wTags))
        (joinSpace (((pySplit mt.stem).drop i0).take l))) ∧
    ∃ res, Rater.call (Rater.init (fun _ => none) 2) wTags = some res :=
  C10_amended (fun _ => none) 2 wTags (by unfold GoodStems; decide) (by omega)

/- ===================== Claim C1 ===================== -/

/-- Claim C1: during redundancy pruning, for every surviving multitag (a
generated stem group `σ` whose canonical tag passes the base filter) and
every contiguous sub-span of its stem words of length 1 up to the word count
minus 1, with the relative frequency being the group's occurrence count over
the sub-span's occurrence count: if the relative frequency is 1 and the tag
is proper, or it is at least one half and the tag's rating is positive, then
the sub-span is removed from the result; otherwise the tag itself is removed
from the result. -/
theorem C1_redundancy (W : String → Option ℝ) (K : ℕ) (tags : List Tag) (σ : String)
    (l i0 : ℕ)
    (hσ : σ ∈ dedupStems (create_multitags K (rate_tags W tags)))
    (hsurv : canonical (create_multitags K (rate_tags W tags)) σ ∈
      unique_tags0 (raterItems (create_multitags K (rate_tags W tags))))
    (hl1 : 1 ≤ l) (hlL : l < (pySplit σ).length)
    (hi : i0 + l ≤ (pySplit σ).length) :
    (pruneCond (countStemM (create_multitags K (rate_tags W tags)))
        (canonical (create_multitags K (rate_tags W tags)) σ)
        (countStemM (create_multitags K (rate_tags W tags)) σ)
        (joinSpace (((pySplit σ).drop i0).take l)) →
      ∀ u ∈ (Rater.call ⟨W, K⟩ tags).getD [],
        u.stem ≠ joinSpace (((pySplit σ).drop i0).take l)) ∧
    (¬ pruneCond (countStemM (create_multitags K (rate_tags W tags)))
        (canonical (create_multitags K (rate_tags W tags)) σ)
        (countStemM (create_multitags K (rate_tags W tags)) σ)
        (joinSpace (((pySplit σ).drop i0).take l)) →
      ∀ u ∈ (Rater.call ⟨W, K⟩ tags).getD [], u.stem ≠ σ) := by
  cases hres : Rater.call ⟨W, K⟩ tags with
  | none =>
    constructor <;> (intro _ u hu; simp at hu)
  | some res =>
    have hres2 := hres
    rw [rater_call_eq] at hres2
    obtain ⟨uniq, hpa, hmsort⟩ := Option.map_eq_some'.mp hres2
    obtain ⟨pre, post, hsplit⟩ := List.append_of_mem hσ
    have hitems : raterItems (create_multitags K (rate_tags W tags)) =
        pre.map (fun τ => (canonical (create_multitags K (rate_tags W tags)) τ,
          countStemM (create_multitags K (rate_tags W tags)) τ)) ++
        (canonical (create_multitags K (rate_tags W tags)) σ,
          countStemM (create_multitags K (rate_tags W tags)) σ) ::
        post.map (fun τ => (canonical (create_multitags K (rate_tags W tags)) τ,
          countStemM (create_multitags K (rate_tags W tags)) τ)) := by
      unfold raterItems
      rw [hsplit, List.map_append, List.map_cons]
    rw [hitems] at hpa
    unfold pruneAll at hpa
    obtain ⟨u1, u2, hfold1, hstep, hfold2⟩ := foldlM_option_split _ _ _ _ _ _ hpa
    have hstep2 : pruneT (countStemM (create_multitags K (rate_tags W tags)))
        (canonical (create_multitags K (rate_tags W tags)) σ)
        (countStemM (create_multitags K (rate_tags W tags)) σ) u1 = some u2 := hstep
    simp only [pruneT] at hstep2
    rw [canonical_stem_eq _ σ hσ] at hstep2
    have hlmem : l ∈ List.range' 1 ((pySplit σ).length - 1) := by
      rw [List.mem_range'_1]
      omega
    obtain ⟨pl, sl, hlsplit⟩ := List.append_of_mem hlmem
    rw [hlsplit] at hstep2
    obtain ⟨v1, v2, hfl1, hlstep, hfl2⟩ := foldlM_option_split _ _ _ _ _ _ hstep2
    have hlstep2 : (List.range ((pySplit σ).length - l + 1)).foldlM
        (pruneSub (countStemM (create_multitags K (rate_tags W tags)))
          (canonical (create_multitags K (rate_tags W tags)) σ)
          (countStemM (create_multitags K (rate_tags W tags)) σ) (pySplit σ) l) v1 =
        some v2 := hlstep
    have himem : i0 ∈ List.range ((pySplit σ).length - l + 1) := by
      rw [List.mem_range]
      omega
    obtain ⟨pi, si, hisplit⟩ := List.append_of_mem himem
    rw [hisplit] at hlstep2
    obtain ⟨w1, w2, hfi1, histep, hfi2⟩ := foldlM_option_split _ _ _ _ _ _ hlstep2
    have hchain : ∀ (τ : String), (∀ x ∈ w2, x.stem ≠ τ) →
        ∀ u ∈ (some res : Option (List MultiTag)).getD [], u.stem ≠ τ := by
      intro τ habs u hu
      simp only [Option.getD_some] at hu
      rw [← hmsort, List.mem_mergeSort] at hu
      have h1 : u ∈ u2 := foldlM_option_subset _
        (fun b a b' hb => pruneT_subset _ a.1 a.2 b b' hb) _ u2 uniq hfold2 u hu
      have h2 : u ∈ v2 := foldlM_option_subset _
        (fun b a b' hb => foldlM_option_subset _
          (fun b2 a2 b2' hb2 => pruneSub_subset _ _ _ _ a b2 a2 b2' hb2) _ b b' hb)
        sl v2 u2 hfl2 u h1
      have h3 : u ∈ w2 := foldlM_option_subset _
        (fun b a b' hb => pruneSub_subset _ _ _ _ l b a b' hb)
        si w2 v2 hfi2 u h2
      exact habs u h3
    constructor
    · intro hcond
      exact hchain _ (pruneSub_some_cond _ _ _ _ _ w1 i0 w2 histep hcond)
    · intro hcond
      have habs := pruneSub_some_ncond _ _ _ _ _ w1 i0 w2 histep hcond
      refine hchain _ ?_
      intro x hx
      rw [← canonical_stem_eq (create_multitags K (rate_tags W tags)) σ hσ]
      exact habs x hx

/-- Witness for claim C1 at the two-tag input `wTags`: the bigram group
`aa bb` survives the base filter, its sub-span `aa` satisfies the pruning
condition (relative frequency 1 with positive rating), and `aa` is removed
from the result. -/
theorem C1_witness :
    "aa" ∉ ((Rater.call ⟨fun _ => none, 2⟩ wTags).getD []).map MultiTag.stem := by
  have hσ : "aa bb" ∈ dedupStems (create_multitags 2 (rate_tags (fun _ => none) wTags)) := by
    have he : dedupStems (create_multitags 2 (rate_tags (fun _ => none) wTags)) =
        ["aa", "aa bb", "bb"] := rfl
    rw [he]
    simp
  have hnp : ∀ mt ∈ create_multitags 2 (rate_tags (fun _ => none) wTags),
      mt.proper = false := by decide
  have hcan := canonical_of_no_proper (create_multitags 2 (rate_tags (fun _ => none) wTags))
    "aa bb" hnp
  have hoccr : (occurrences (create_multitags 2 (rate_tags (fun _ => none) wTags))
      "aa bb").headD dummyMT =
      MultiTag.extend (MultiTag.ofTag ((rate_tags (fun _ => none) wTags).getD 0 dummyTag))
        ((rate_tags (fun _ => none) wTags).getD 1 dummyTag) := rfl
  have hsubs : (MultiTag.extend
      (MultiTag.ofTag ((rate_tags (fun _ => none) wTags).getD 0 dummyTag))
      ((rate_tags (fun _ => none) wTags).getD 1 dummyTag)).subratings =
      [((1 : ℕ) : ℝ) / ((2 : ℕ) : ℝ) * 1, ((1 : ℕ) : ℝ) / ((2 : ℕ) : ℝ) * 1] := rfl
  have hratpos : 0 < (canonical (create_multitags 2 (rate_tags (fun _ => none) wTags))
      "aa bb").rating := by
    rw [hcan]
    show 0 < ((occurrences (create_multitags 2 (rate_tags (fun _ => none) wTags))
      "aa bb").headD dummyMT).rating
    rw [hoccr, extend_rating]
    apply combined_rating_pos
    rw [hsubs]
    show (0 : ℝ) < 1 * (((1 : ℕ) : ℝ) / ((2 : ℕ) : ℝ) * 1) *
      (((1 : ℕ) : ℝ) / ((2 : ℕ) : ℝ) * 1)
    norm_num
  have hsurv : canonical (create_multitags 2 (rate_tags (fun _ => none) wTags)) "aa bb" ∈
      unique_tags0 (raterItems (create_multitags 2 (rate_tags (fun _ => none) wTags))) := by
    unfold unique_tags0
    apply List.mem_filter.mpr
    constructor
    · unfold raterItems
      rw [List.map_map]
      exact List.mem_map_of_mem _ hσ
    · rw [decide_eq_true_eq]
      refine ⟨?_, hratpos⟩
      rw [hcan]
      decide
  have hjoin : joinSpace (((pySplit "aa bb").drop 0).take 1) = "aa" := rfl
  have hcond : pruneCond
      (countStemM (create_multitags 2 (rate_tags (fun _ => none) wTags)))
      (canonical (create_multitags 2 (rate_tags (fun _ => none) wTags)) "aa bb")
      (countStemM (create_multitags 2 (rate_tags (fun _ => none) wTags)) "aa bb")
      (joinSpace (((pySplit "aa bb").drop 0).take 1)) := by
    refine Or.inr ⟨?_, hratpos⟩
    rw [hjoin]
    have h1 : countStemM (create_multitags 2 (rate_tags (fun _ => none) wTags))
        "aa bb" = 1 := rfl
    have h2 : countStemM (create_multitags 2 (rate_tags (fun _ => none) wTags)) "aa" = 1 := rfl
    rw [h1, h2]
    norm_num
  have hmain := (C1_redundancy (fun _ => none) 2 wTags "aa bb" 1 0 hσ hsurv (by omega)
    (by decide) (by decide)).1 hcond
  intro hmem
  rw [List.mem_map] at hmem
  obtain ⟨u, hu, hstem⟩ := hmem
  exact hmain u hu (hstem.trans hjoin.symm)

/- ===================== Claim C4 ===================== -/

/-- Claim C4: at the four-tag input `tieTags` (two sentences of two words
each) the two surviving bigram groups `alpha beta` and `gamma delta` are
distinct tags with exactly equal ratings; the sort by rating therefore does
not determine their relative order, which the implementation takes from the
iteration order of a hash-based set. -/
theorem C4_tie_exhibit :
    (canonical tieMts "alpha beta").rating = (canonical tieMts "gamma delta").rating ∧
    (canonical tieMts "alpha beta").stem ≠ (canonical tieMts "gamma delta").stem ∧
    canonical tieMts "alpha beta" ∈ unique_tags0 (raterItems tieMts) ∧
    canonical tieMts "gamma delta" ∈ unique_tags0 (raterItems tieMts) := by
  have hσ1 : "alpha beta" ∈ dedupStems tieMts := by
    have he : dedupStems tieMts =
        ["alpha", "alpha beta", "beta", "gamma", "gamma delta", "delta"] := rfl
    rw [he]
    simp
  have hσ2 : "gamma delta" ∈ dedupStems tieMts := by
    have he : dedupStems tieMts =
        ["alpha", "alpha beta", "beta", "gamma", "gamma delta", "delta"] := rfl
    rw [he]
    simp
  have hnp : ∀ mt ∈ tieMts, mt.proper = false := by
    unfold tieMts tieTags
    decide
  have hcan1 := canonical_of_no_proper tieMts "alpha beta" hnp
  have hcan2 := canonical_of_no_proper tieMts "gamma delta" hnp
  have hocc1 : (occurrences tieMts "alpha beta").headD dummyMT =
      MultiTag.extend
        (MultiTag.ofTag ((rate_tags (fun _ => none) tieTags).getD 0 dummyTag))
        ((rate_tags (fun _ => none) tieTags).getD 1 dummyTag) := rfl
  have hocc2 : (occurrences tieMts "gamma delta").headD dummyMT =
      MultiTag.extend
        (MultiTag.ofTag ((rate_tags (fun _ => none) tieTags).getD 2 dummyTag))
        ((rate_tags (fun _ => none) tieTags).getD 3 dummyTag) := rfl
  have hsubs1 : (MultiTag.extend
      (MultiTag.ofTag ((rate_tags (fun _ => none) tieTags).getD 0 dummyTag))
      ((rate_tags (fun _ => none) tieTags).getD 1 dummyTag)).subratings =
      [((1 : ℕ) : ℝ) / ((4 : ℕ) : ℝ) * 1, ((1 : ℕ) : ℝ) / ((4 : ℕ) : ℝ) * 1] := rfl
  have hsubs2 : (MultiTag.extend
      (MultiTag.ofTag ((rate_tags (fun _ => none) tieTags).getD 2 dummyTag))
      ((rate_tags (fun _ => none) tieTags).getD 3 dummyTag)).subratings =
      [((1 : ℕ) : ℝ) / ((4 : ℕ) : ℝ) * 1, ((1 : ℕ) : ℝ) / ((4 : ℕ) : ℝ) * 1] := rfl
  have hpos : ∀ (h : MultiTag) (u : Tag),
      (MultiTag.extend h u).subratings =
        [((1 : ℕ) : ℝ) / ((4 : ℕ) : ℝ) * 1, ((1 : ℕ) : ℝ) / ((4 : ℕ) : ℝ) * 1] →
      0 < (MultiTag.extend h u).rating := by
    intro h u hs
    rw [extend_rating]
    apply combined_rating_pos
    rw [hs]
    show (0 : ℝ) < 1 * (((1 : ℕ) : ℝ) / ((4 : ℕ) : ℝ) * 1) *
      (((1 : ℕ) : ℝ) / ((4 : ℕ) : ℝ) * 1)
    norm_num
  have hratpos1 : 0 < (canonical tieMts "alpha beta").rating := by
    rw [hcan1]
    show 0 < ((occurrences tieMts "alpha beta").headD dummyMT).rating
    rw [hocc1]
    exact hpos _ _ hsubs1
  have hratpos2 : 0 < (canonical tieMts "gamma delta").rating := by
    rw [hcan2]
    show 0 < ((occurrences tieMts "gamma delta").headD dummyMT).rating
    rw [hocc2]
    exact hpos _ _ hsubs2
  refine ⟨?_, ?_, ?_, ?_⟩
  · rw [hcan1, hcan2]
    show ((occurrences tieMts "alpha beta").headD dummyMT).rating =
      ((occurrences tieMts "gamma delta").headD dummyMT).rating
    rw [hocc1, hocc2, extend_rating, extend_rating]
    exact combined_rating_congr _ _ (by rw [hsubs1, hsubs2]) rfl rfl
  · rw [canonical_stem_eq tieMts "alpha beta" hσ1, canonical_stem_eq tieMts "gamma delta" hσ2]
    decide
  · unfold unique_tags0
    apply List.mem_filter.mpr
    refine ⟨?_, ?_⟩
    · unfold raterItems
      rw [List.map_map]
      exact List.mem_map_of_mem _ hσ1
    · rw [decide_eq_true_eq]
      refine ⟨?_, hratpos1⟩
      rw [hcan1]
      decide
  · unfold unique_tags0
    apply List.mem_filter.mpr
    refine ⟨?_, ?_⟩
    · unfold raterItems
      rw [List.map_map]
      exact List.mem_map_of_mem _ hσ2
    · rw [decide_eq_true_eq]
      refine ⟨?_, hratpos2⟩
      rw [hcan2]
      decide
